import Mathlib

/-!
Verification of the raw-to-native exporter (`Raw2Cross.cpp`).

This development shallowly embeds the exporter: 32-bit floats are modelled as
rationals (the exporter only copies and compares them on the code paths under
study), C strings as `List Char`, machine integers as `Nat`/`Int`, and the
bytes emitted through `fwrite` as a list of tagged write items whose byte
sizes mirror `sizeof` on the source platform.
-/

set_option maxHeartbeats 1000000

namespace Raw2Cross

/-! ## Scalar and vertex data model (`RawModel.h` records as consumed here) -/

structure Vec2 where
  x : ℚ
  y : ℚ
deriving DecidableEq, Repr

structure Vec3 where
  x : ℚ
  y : ℚ
  z : ℚ
deriving DecidableEq, Repr

structure Vec4 where
  x : ℚ
  y : ℚ
  z : ℚ
  w : ℚ
deriving DecidableEq, Repr

/-- Quaternion in the in-memory `(w, x, y, z)` layout: `rotation[0] = w`,
`rotation[1] = x`, `rotation[2] = y`, `rotation[3] = z`. -/
structure Quat where
  w : ℚ
  x : ℚ
  y : ℚ
  z : ℚ
deriving DecidableEq, Repr

/-- `RawVertex`: the fields the exporter reads. -/
structure RawVertex where
  position : Vec3
  normal : Vec3
  binormal : Vec3
  color : Vec4
  uv0 : Vec2
  uv1 : Vec2
  jointIndices : Vec4
  jointWeights : Vec4
deriving DecidableEq, Repr

instance : Inhabited RawVertex :=
  ⟨⟨⟨0,0,0⟩, ⟨0,0,0⟩, ⟨0,0,0⟩, ⟨0,0,0,0⟩, ⟨0,0⟩, ⟨0,0⟩, ⟨0,0,0,0⟩, ⟨0,0,0,0⟩⟩⟩

/-- `RawTriangle`: three vertex indices (`verts[0..2]`). -/
structure RawTriangle where
  v0 : ℕ
  v1 : ℕ
  v2 : ℕ
deriving DecidableEq, Repr

/-- One material-partitioned sub-model as consumed by the mesh writer:
its local vertex array, its triangle list, and the name of its single
surface (`GetSurface(0).name`). -/
structure SubModel where
  vertices : List RawVertex
  triangles : List RawTriangle
  surfaceName : String
deriving Repr

instance : Inhabited SubModel := ⟨⟨[], [], ""⟩⟩

/-! ## `splitfilename` -/

/-- The separator test of `splitfilename`: `*p == '/' || *p == '\\'`. -/
def sepB (c : Char) : Bool := c = '/' || c = '\\'

/-- NUL, the C string terminator; `List.getD` positions past the end of the
modelled string read it, mirroring `*p` at the terminator. -/
def nulC : Char := Char.ofNat 0

/-- The first loop of `splitfilename`: scan the characters left to right;
on a separator, skip the whole run (`do { p++ } while (*p is sep)`), make the
remainder the new `base`, and resume scanning after its first character (the
`for` increment).  `base` starts as the whole string. -/
def baseFrom (base : List Char) : List Char → List Char
  | [] => base
  | c :: t =>
    if sepB c then
      if (t.dropWhile sepB).isEmpty then [] else
        baseFrom (t.dropWhile sepB) (t.dropWhile sepB).tail
    else
      baseFrom base t
termination_by l => l.length
decreasing_by
  · have h1 : (t.dropWhile sepB).length ≤ t.length :=
      (List.dropWhile_suffix sepB).sublist.length_le
    have h3 : (t.dropWhile sepB).tail.length = (t.dropWhile sepB).length - 1 :=
      List.length_tail _
    simp only [List.length_cons]
    omega
  · simp

/-- The basename computed by `splitfilename`'s first loop. -/
def cBasename (s : List Char) : List Char := baseFrom s s

/-- The second loop of `splitfilename`: `for (p = base + len; p != base && *p != '.'; p--);`
scans positions `len, len-1, …` down to `base`, stopping at the first `'.'`
(position `len` holds the NUL terminator). -/
def revScan (base : List Char) : ℕ → ℕ
  | 0 => 0
  | k + 1 => if base.getD (k + 1) nulC = '.' then k + 1 else revScan base k

/-- Where the extension starts inside the basename, including the correction
`if (p == base && *p != '.') p = base + len;`. -/
def extStart (base : List Char) : ℕ :=
  let j := revScan base base.length
  if j = 0 ∧ ¬ base.getD 0 nulC = '.' then base.length else j

/-- `splitfilename`: returns the `fname` and `ext` output strings (the two
copy loops emit `base[0..p)` and `base[p..len)`). -/
def splitfilename (s : List Char) : List Char × List Char :=
  let b := cBasename s
  let j := extStart b
  (b.take j, b.drop j)

/-! ## Vertex attribute bitset and `GetVertexSize`

The `RAW_VERTEX_ATTRIBUTE_*` constants live in `RawModel.h`, which is outside
this repository's sources.  Modelled from the spec: §4.1 fixes the attribute
set and canonical order (POSITION, NORMAL, BINORMAL, COLOR, UV0, UV1,
JOINT_INDICES, JOINT_WEIGHTS); they are single-bit flags of an `unsigned int`
bitset, and no claim depends on the particular bit values, so consecutive
bits are used. -/

def RAW_VERTEX_ATTRIBUTE_POSITION : ℕ := 1
def RAW_VERTEX_ATTRIBUTE_NORMAL : ℕ := 2
def RAW_VERTEX_ATTRIBUTE_BINORMAL : ℕ := 4
def RAW_VERTEX_ATTRIBUTE_COLOR : ℕ := 8
def RAW_VERTEX_ATTRIBUTE_UV0 : ℕ := 16
def RAW_VERTEX_ATTRIBUTE_UV1 : ℕ := 32
def RAW_VERTEX_ATTRIBUTE_JOINT_INDICES : ℕ := 64
def RAW_VERTEX_ATTRIBUTE_JOINT_WEIGHTS : ℕ := 128

/-- `sizeof(float)` on the target platform. -/
def sizeofFloat : ℕ := 4

/-- `GetVertexSize`: accumulate the byte size of each enabled attribute. -/
def GetVertexSize (format : ℕ) : ℕ :=
  let size := 0
  let size := if format &&& RAW_VERTEX_ATTRIBUTE_POSITION ≠ 0 then size + sizeofFloat * 3 else size
  let size := if format &&& RAW_VERTEX_ATTRIBUTE_NORMAL ≠ 0 then size + sizeofFloat * 3 else size
  let size := if format &&& RAW_VERTEX_ATTRIBUTE_BINORMAL ≠ 0 then size + sizeofFloat * 3 else size
  let size := if format &&& RAW_VERTEX_ATTRIBUTE_COLOR ≠ 0 then size + sizeofFloat * 3 else size
  let size := if format &&& RAW_VERTEX_ATTRIBUTE_UV0 ≠ 0 then size + sizeofFloat * 2 else size
  let size := if format &&& RAW_VERTEX_ATTRIBUTE_UV1 ≠ 0 then size + sizeofFloat * 2 else size
  let size := if format &&& RAW_VERTEX_ATTRIBUTE_JOINT_INDICES ≠ 0 then size + sizeofFloat * 4 else size
  let size := if format &&& RAW_VERTEX_ATTRIBUTE_JOINT_WEIGHTS ≠ 0 then size + sizeofFloat * 4 else size
  size

/-! ## Mesh writer: header computation (`ExportMeshHeader`) -/

/-- `FLT_MAX`, the empty-AABB sentinel initial value. -/
def FLT_MAX : ℚ := 2 ^ 128 - 2 ^ 104

/-- The six AABB fields of a `SubMeshHeader` with their in-struct
initializers. -/
structure Bounds where
  minx : ℚ
  miny : ℚ
  minz : ℚ
  maxx : ℚ
  maxy : ℚ
  maxz : ℚ
deriving DecidableEq, Repr

/-- The `SubMeshHeader` initial AABB: `min = FLT_MAX`, `max = -FLT_MAX`. -/
def bounds0 : Bounds :=
  ⟨FLT_MAX, FLT_MAX, FLT_MAX, -FLT_MAX, -FLT_MAX, -FLT_MAX⟩

/-- `if (min > x) min = x;` -/
def updMin (m p : ℚ) : ℚ := if m > p then p else m

/-- `if (max < x) max = x;` -/
def updMax (m p : ℚ) : ℚ := if m < p then p else m

/-- One iteration of the AABB loop over a vertex. -/
def boundsStep (b : Bounds) (v : RawVertex) : Bounds :=
  ⟨updMin b.minx v.position.x, updMin b.miny v.position.y, updMin b.minz v.position.z,
   updMax b.maxx v.position.x, updMax b.maxy v.position.y, updMax b.maxz v.position.z⟩

/-- The AABB loop of `ExportMeshHeader` over one sub-model's vertices. -/
def boundsOf (vs : List RawVertex) : Bounds := vs.foldl boundsStep bounds0

/-- One `SubMeshHeader` record (fields in declaration order: `szName[260]`,
the six AABB floats, `baseVertex`, `firstIndex`, `indexCount`). -/
structure SubMeshHeader where
  szName : String
  aabb : Bounds
  baseVertex : ℕ
  firstIndex : ℕ
  indexCount : ℕ
deriving Repr

/-- The per-submesh loop of `ExportMeshHeader`: computes each record's AABB,
sets `baseVertex = 0`, `firstIndex` to the running index count `numIndex`,
and `indexCount = GetTriangleCount() * 3`. -/
def mkSubMeshHeaders : List SubModel → ℕ → List SubMeshHeader
  | [], _ => []
  | m :: ms, numIndex =>
    { szName := m.surfaceName
      aabb := boundsOf m.vertices
      baseVertex := 0
      firstIndex := numIndex
      indexCount := m.triangles.length * 3 } ::
      mkSubMeshHeaders ms (numIndex + m.triangles.length * 3)

/-- The `MeshHeader` fields (the `subMeshHeaders` vector is kept alongside). -/
structure MeshHeader where
  format : ℕ
  numSubMeshs : ℕ
  indexBufferSize : ℕ
  indexBufferOffset : ℕ
  vertexBufferSize : ℕ
  vertexBufferOffset : ℕ
  subMeshHeaders : List SubMeshHeader
deriving Repr

/-- `sizeof(unsigned int)`. -/
def sizeofU32 : ℕ := 4

/-- `sizeof(SubMeshHeader)`: `char[260]` + six `float` + three `unsigned int`,
all 4-byte aligned with no padding. -/
def sizeofSubMeshHeader : ℕ := 260 + 6 * sizeofFloat + 3 * sizeofU32

/-- `offsetof(MeshHeader, subMeshHeaders)`: the six leading `unsigned int`
fields. -/
def offsetofSubMeshHeaders : ℕ := 6 * sizeofU32

/-- `ExportMeshHeader`'s header assembly: format, counts, buffer sizes, and
the offsets `baseOffset = offsetof(MeshHeader, subMeshHeaders) +
sizeof(SubMeshHeader) * numSubMeshs`, `indexBufferOffset = baseOffset`,
`vertexBufferOffset = baseOffset + indexBufferSize`. -/
def mkMeshHeader (format : ℕ) (models : List SubModel) : MeshHeader :=
  let indexBufferSize := (models.map (fun m => m.triangles.length * 3 * sizeofU32)).sum
  let vertexBufferSize := (models.map (fun m => m.vertices.length * GetVertexSize format)).sum
  let baseOffset := offsetofSubMeshHeaders + sizeofSubMeshHeader * models.length
  { format := format
    numSubMeshs := models.length
    indexBufferSize := indexBufferSize
    indexBufferOffset := baseOffset
    vertexBufferSize := vertexBufferSize
    vertexBufferOffset := baseOffset + indexBufferSize
    subMeshHeaders := mkSubMeshHeaders models 0 }

/-! ## The byte stream written through `fwrite` -/

/-- One written item: a 32-bit unsigned integer, a 32-bit float, or a single
`char` of the fixed-size `szName` array. -/
inductive Wr where
  | u32 : ℕ → Wr
  | f32 : ℚ → Wr
  | chr : Char → Wr
deriving DecidableEq, Repr

/-- Byte size of one written item. -/
def wrSize : Wr → ℕ
  | .u32 _ => sizeofU32
  | .f32 _ => sizeofFloat
  | .chr _ => 1

/-- Total byte count of a write stream. -/
def bytesLen (l : List Wr) : ℕ := (l.map wrSize).sum

/-- The 260 `char`s of the `szName[260]` field: the name (truncated to the
field size) padded with NULs. -/
def nameChars (s : String) : List Wr :=
  ((s.data.take 260) ++ List.replicate (260 - min s.data.length 260) nulC).map Wr.chr

/-- The bytes of one `SubMeshHeader` record as laid out in memory and passed
to `fwrite`. -/
def subMeshHeaderWr (h : SubMeshHeader) : List Wr :=
  nameChars h.szName ++
  [Wr.f32 h.aabb.minx, Wr.f32 h.aabb.miny, Wr.f32 h.aabb.minz,
   Wr.f32 h.aabb.maxx, Wr.f32 h.aabb.maxy, Wr.f32 h.aabb.maxz,
   Wr.u32 h.baseVertex, Wr.u32 h.firstIndex, Wr.u32 h.indexCount]

/-- The write stream of `ExportMeshHeader`: the six header fields, then the
`subMeshHeaders` array. -/
def meshHeaderWr (h : MeshHeader) : List Wr :=
  [Wr.u32 h.format, Wr.u32 h.numSubMeshs,
   Wr.u32 h.indexBufferSize, Wr.u32 h.indexBufferOffset,
   Wr.u32 h.vertexBufferSize, Wr.u32 h.vertexBufferOffset] ++
  h.subMeshHeaders.flatMap subMeshHeaderWr

/-- `ExportMeshHeader`: compute the header and write it. -/
def ExportMeshHeader (format : ℕ) (models : List SubModel) : List Wr :=
  meshHeaderWr (mkMeshHeader format models)

/-! ## Mesh writer: index and vertex data (`ExportMeshData`)

`ExportMeshData` calls `PVRTGeometrySort`, a library routine whose code is
not part of this repository.  Modelled from the spec: the vertex-cache
optimizer is "a pure function over `(vertices, indices, stride, vertexCount,
triangleCount, mode=VERTEXCACHE)` that permutes both arrays in place",
producing "an equivalent mesh with improved post-transform cache locality";
it is abstracted as any function `opt` satisfying `OptContract`. -/

/-- Result of one in-place optimizer call on a submesh's slices. -/
structure OptResult where
  vertices : List RawVertex
  indices : List ℕ

/-- The optimizer contract (§6 of the spec): the vertex array is permuted,
the index array keeps its length, and on valid input indices the output
indices stay in range of the vertex array. -/
def OptContract (opt : List RawVertex → List ℕ → OptResult) : Prop :=
  ∀ vs is,
    ((opt vs is).vertices.Perm vs) ∧
    ((opt vs is).indices.length = is.length) ∧
    ((∀ i ∈ is, i < vs.length) → ∀ i ∈ (opt vs is).indices, i < vs.length)

/-- The identity optimizer (a legal instance of the contract). -/
def idOpt : List RawVertex → List ℕ → OptResult := fun vs is => ⟨vs, is⟩

/-- The flattened triangle index stream of one sub-model
(`triangle.verts[0..2]` pushed in order). -/
def triIndices (m : SubModel) : List ℕ :=
  m.triangles.flatMap (fun t => [t.v0, t.v1, t.v2])

/-- The per-submesh loop of `ExportMeshData` on the accumulated `indices` /
`vertices` vectors: record `baseIndex`/`baseVertex`, append the sub-model's
vertices and flattened triangle indices, optimize the new slices in place,
then add `baseVertex` to every index of the new slice. -/
def meshDataLoop (opt : List RawVertex → List ℕ → OptResult)
    (acc : List ℕ × List RawVertex) : List SubModel → List ℕ × List RawVertex
  | [] => acc
  | m :: ms =>
    let baseVertex := acc.2.length
    let r := opt m.vertices (triIndices m)
    meshDataLoop opt (acc.1 ++ r.indices.map (· + baseVertex), acc.2 ++ r.vertices) ms

/-- The `indices` and `vertices` vectors at the end of `ExportMeshData`'s
first loop. -/
def meshDataArrays (opt : List RawVertex → List ℕ → OptResult)
    (models : List SubModel) : List ℕ × List RawVertex :=
  meshDataLoop opt ([], []) models

/-- The per-vertex write sequence of `ExportMeshData`'s output loop: for each
enabled attribute, its components in canonical order; `color.w` is never
written (the commented-out line in the source). -/
def vertexWr (format : ℕ) (v : RawVertex) : List Wr :=
  (if format &&& RAW_VERTEX_ATTRIBUTE_POSITION ≠ 0 then
    [Wr.f32 v.position.x, Wr.f32 v.position.y, Wr.f32 v.position.z] else []) ++
  (if format &&& RAW_VERTEX_ATTRIBUTE_NORMAL ≠ 0 then
    [Wr.f32 v.normal.x, Wr.f32 v.normal.y, Wr.f32 v.normal.z] else []) ++
  (if format &&& RAW_VERTEX_ATTRIBUTE_BINORMAL ≠ 0 then
    [Wr.f32 v.binormal.x, Wr.f32 v.binormal.y, Wr.f32 v.binormal.z] else []) ++
  (if format &&& RAW_VERTEX_ATTRIBUTE_COLOR ≠ 0 then
    [Wr.f32 v.color.x, Wr.f32 v.color.y, Wr.f32 v.color.z] else []) ++
  (if format &&& RAW_VERTEX_ATTRIBUTE_UV0 ≠ 0 then
    [Wr.f32 v.uv0.x, Wr.f32 v.uv0.y] else []) ++
  (if format &&& RAW_VERTEX_ATTRIBUTE_UV1 ≠ 0 then
    [Wr.f32 v.uv1.x, Wr.f32 v.uv1.y] else []) ++
  (if format &&& RAW_VERTEX_ATTRIBUTE_JOINT_INDICES ≠ 0 then
    [Wr.f32 v.jointIndices.x, Wr.f32 v.jointIndices.y,
     Wr.f32 v.jointIndices.z, Wr.f32 v.jointIndices.w] else []) ++
  (if format &&& RAW_VERTEX_ATTRIBUTE_JOINT_WEIGHTS ≠ 0 then
    [Wr.f32 v.jointWeights.x, Wr.f32 v.jointWeights.y,
     Wr.f32 v.jointWeights.z, Wr.f32 v.jointWeights.w] else []) ++ []

/-- The index block write loop. -/
def indexBlockWr (idx : List ℕ) : List Wr := idx.map Wr.u32

/-- The vertex block write loop. -/
def vertexBlockWr (format : ℕ) (vs : List RawVertex) : List Wr :=
  vs.flatMap (vertexWr format)

/-- `ExportMeshData`: build the arrays, then write all indices followed by
all vertices. -/
def ExportMeshData (opt : List RawVertex → List ℕ → OptResult)
    (format : ℕ) (models : List SubModel) : List Wr :=
  let p := meshDataArrays opt models
  indexBlockWr p.1 ++ vertexBlockWr format p.2

/-- The full byte stream of a mesh file. -/
def exportMeshWr (opt : List RawVertex → List ℕ → OptResult)
    (format : ℕ) (models : List SubModel) : List Wr :=
  ExportMeshHeader format models ++ ExportMeshData opt format models

/-- `ExportMesh`: if `fopen` succeeds the header and data are written and the
file closed; the function returns `true` in every case.  The first component
is the produced artifact (`none` when no file could be created). -/
def ExportMesh (fopenOk : Bool) (opt : List RawVertex → List ℕ → OptResult)
    (format : ℕ) (models : List SubModel) : Option (List Wr) × Bool :=
  ((if fopenOk then some (exportMeshWr opt format models) else none), true)

/-! ## XML documents (the TinyXml tree as built by the writers) -/

/-- An XML element: tag, attributes in the order they were set, children in
the order they were linked. -/
inductive Xml where
  | elem (tag : String) (attrs : List (String × String)) (children : List Xml)

def Xml.tag : Xml → String
  | .elem t _ _ => t

def Xml.attrs : Xml → List (String × String)
  | .elem _ a _ => a

def Xml.children : Xml → List Xml
  | .elem _ _ c => c

/-- Value of an attribute, if set. -/
def Xml.attr (x : Xml) (key : String) : Option String :=
  (x.attrs.find? (fun p => p.1 = key)).map (·.2)

/-- All elements with a given tag, in document order (the element itself
included). -/
def collectByTag (tag : String) : Xml → List Xml
  | .elem t attrs children =>
    (if t = tag then [Xml.elem t attrs children] else []) ++
    children.attach.flatMap (fun c => collectByTag tag c.1)
decreasing_by
  simp only [Xml.elem.sizeOf_spec]
  have h := List.sizeOf_lt_of_mem c.2
  omega

/-! ## Material writer (`ExportMaterial`)

The `RAW_TEXTURE_USAGE_*` constants live in `RawModel.h`, outside this
repository's sources.  Modelled from the spec: §3 lists the texture slots in
declaration order (ambient, diffuse, normal, specular, shininess, emissive,
reflection, albedo, occlusion, roughness, metallic), giving indices 0–10. -/

def RAW_TEXTURE_USAGE_AMBIENT : ℕ := 0
def RAW_TEXTURE_USAGE_DIFFUSE : ℕ := 1
def RAW_TEXTURE_USAGE_NORMAL : ℕ := 2
def RAW_TEXTURE_USAGE_SPECULAR : ℕ := 3
def RAW_TEXTURE_USAGE_SHININESS : ℕ := 4
def RAW_TEXTURE_USAGE_EMISSIVE : ℕ := 5
def RAW_TEXTURE_USAGE_REFLECTION : ℕ := 6
def RAW_TEXTURE_USAGE_ALBEDO : ℕ := 7
def RAW_TEXTURE_USAGE_OCCLUSION : ℕ := 8
def RAW_TEXTURE_USAGE_ROUGHNESS : ℕ := 9
def RAW_TEXTURE_USAGE_METALLIC : ℕ := 10

/-- `RawMaterial` as consumed by the material writer: the name and the
texture-slot array (`-1` = slot empty, otherwise an index into the model's
texture sequence). -/
structure RawMaterial where
  name : String
  textures : List Int
deriving Repr

/-- `rawModel.GetTexture(i).fileName`. -/
def GetTexture (textureFileNames : List String) (i : ℕ) : String :=
  textureFileNames.getD i ""

/-- The `Define` children of the `Vertex` element, one per enabled attribute
plus the unconditional `INSTANCE_ATTRIBUTE_TRANSFORM`. -/
def defineNodes (format : ℕ) : List Xml :=
  (if format &&& RAW_VERTEX_ATTRIBUTE_POSITION ≠ 0 then
    [Xml.elem "Define" [("name", "VERTEX_ATTRIBUTE_POSITION")] []] else []) ++
  (if format &&& RAW_VERTEX_ATTRIBUTE_NORMAL ≠ 0 then
    [Xml.elem "Define" [("name", "VERTEX_ATTRIBUTE_NORMAL")] []] else []) ++
  (if format &&& RAW_VERTEX_ATTRIBUTE_BINORMAL ≠ 0 then
    [Xml.elem "Define" [("name", "VERTEX_ATTRIBUTE_BINORMAL")] []] else []) ++
  (if format &&& RAW_VERTEX_ATTRIBUTE_COLOR ≠ 0 then
    [Xml.elem "Define" [("name", "VERTEX_ATTRIBUTE_COLOR")] []] else []) ++
  (if format &&& RAW_VERTEX_ATTRIBUTE_UV0 ≠ 0 then
    [Xml.elem "Define" [("name", "VERTEX_ATTRIBUTE_TEXCOORD0")] []] else []) ++
  (if format &&& RAW_VERTEX_ATTRIBUTE_UV1 ≠ 0 then
    [Xml.elem "Define" [("name", "VERTEX_ATTRIBUTE_TEXCOORD1")] []] else []) ++
  (if format &&& RAW_VERTEX_ATTRIBUTE_JOINT_INDICES ≠ 0 then
    [Xml.elem "Define" [("name", "VERTEX_ATTRIBUTE_INDICES")] []] else []) ++
  (if format &&& RAW_VERTEX_ATTRIBUTE_JOINT_WEIGHTS ≠ 0 then
    [Xml.elem "Define" [("name", "VERTEX_ATTRIBUTE_WEIGHTS")] []] else []) ++
  [Xml.elem "Define" [("name", "INSTANCE_ATTRIBUTE_TRANSFORM")] []]

/-- The `Texture2D` children linked into the `Pass` element: only the
diffuse/albedo pair is examined; when one is present, `indexTexture` is set
to the diffuse slot and then overwritten by the albedo slot, and a single
element is emitted under sampler name `texAlbedo` with `file_name` the
basename + extension of the texture's path. -/
def textureNodes (textureFileNames : List String) (mat : RawMaterial) : List Xml :=
  if mat.textures.getD RAW_TEXTURE_USAGE_DIFFUSE (-1) ≥ 0 ∨
     mat.textures.getD RAW_TEXTURE_USAGE_ALBEDO (-1) ≥ 0 then
    let indexTexture : Int := -1
    let indexTexture := if mat.textures.getD RAW_TEXTURE_USAGE_DIFFUSE (-1) ≥ 0 then
      (RAW_TEXTURE_USAGE_DIFFUSE : Int) else indexTexture
    let indexTexture := if mat.textures.getD RAW_TEXTURE_USAGE_ALBEDO (-1) ≥ 0 then
      (RAW_TEXTURE_USAGE_ALBEDO : Int) else indexTexture
    let path := GetTexture textureFileNames (mat.textures.getD indexTexture.toNat (-1)).toNat
    let fe := splitfilename path.data
    [Xml.elem "Texture2D"
      [("name", "texAlbedo"),
       ("file_name", String.mk (fe.1 ++ fe.2)),
       ("min_filter", "GFX_NEAREST"),
       ("mag_filter", "GFX_LINEAR"),
       ("mipmap_mode", "GFX_NEAREST"),
       ("address_mode", "GFX_CLAMP_TO_EDGE")] []]
  else []

/-- The document built by the per-material `ExportMaterial`. -/
def exportMaterialDoc (format : ℕ) (textureFileNames : List String)
    (mat : RawMaterial) : Xml :=
  Xml.elem "Material" []
    [Xml.elem "Pass" [("name", "Default")]
      ([Xml.elem "Pipeline" [("render_pass", "Default")]
          [Xml.elem "Vertex" [("file_name", "Default.glsl")] (defineNodes format),
           Xml.elem "Fragment" [("file_name", "Default.glsl")] []]] ++
        textureNodes textureFileNames mat)]

/-- `GetMaterialFileName`: path prefix + material name + `.material`. -/
def GetMaterialFileName (pathName : String) (mat : RawMaterial) : String :=
  pathName ++ mat.name ++ ".material"

/-- The public `ExportMaterial`: one document per material (each saved to its
file, the per-file save result discarded); returns `true` in every case. -/
def ExportMaterial (format : ℕ) (textureFileNames : List String)
    (materials : List RawMaterial) : List Xml × Bool :=
  (materials.map (exportMaterialDoc format textureFileNames), true)

/-! ## Scene writer (`ExportMeshXML`, `ExportNode`, `ExportNodeDraw`) -/

/-- `RawNode` as consumed by the scene writer, with the child id sequence
resolved to the child records (the id→index indirection of the façade is
collapsed; the node forest is acyclic by the spec's invariant). -/
inductive RawNode where
  | node (name : String) (translation : Vec3) (rotation : Quat) (scale : Vec3)
      (surfaceId : Int) (children : List RawNode)
deriving Repr

def RawNode.name : RawNode → String
  | .node n _ _ _ _ _ => n

def RawNode.translation : RawNode → Vec3
  | .node _ t _ _ _ _ => t

def RawNode.rotation : RawNode → Quat
  | .node _ _ r _ _ _ => r

def RawNode.scale : RawNode → Vec3
  | .node _ _ _ s _ _ => s

def RawNode.surfaceId : RawNode → Int
  | .node _ _ _ _ i _ => i

def RawNode.children : RawNode → List RawNode
  | .node _ _ _ _ _ c => c

/-- `strstr(hay, needle) != nullptr`. -/
def strstrB (hay needle : List Char) : Bool :=
  if needle.isPrefixOf hay then true
  else
    match hay with
    | [] => false
    | _ :: t => strstrB t needle

/-- `IsNameLODGroup`: the name contains the literal substring `_LODGroup`. -/
def IsNameLODGroup (name : String) : Bool :=
  strstrB name.data "_LODGroup".data

/-- The tolerance `0.0001f` of the LOD-group checks. -/
def lodEps : ℚ := 1 / 10000

/-- `IsNodeLODGrpup` (the source's spelling): the name matches, there is at
least one child, and every child has no children of its own and identity
scale, zero translation and identity rotation within the tolerance. -/
def IsNodeLODGrpup (n : RawNode) : Bool :=
  if IsNameLODGroup n.name = false then false
  else if n.children.isEmpty = true then false
  else n.children.all fun c =>
    ¬(c.children.isEmpty = false) &&
    ¬(|c.scale.x - 1| > lodEps || |c.scale.y - 1| > lodEps || |c.scale.z - 1| > lodEps) &&
    ¬(|c.translation.x - 0| > lodEps || |c.translation.y - 0| > lodEps ||
      |c.translation.z - 0| > lodEps) &&
    ¬(|c.rotation.w - 1| > lodEps || |c.rotation.x - 0| > lodEps ||
      |c.rotation.y - 0| > lodEps || |c.rotation.z - 0| > lodEps)

/-- `GetLODIndex`: the first of `_LOD0` … `_LOD7` occurring as a substring of
the name, `-1` when none does. -/
def lodPattern (k : ℕ) : List Char := '_' :: 'L' :: 'O' :: 'D' :: [Char.ofNat (48 + k)]

def GetLODIndexLoop (name : List Char) : ℕ → Int
  | 0 => -1
  | k + 1 =>
    let indexLOD := 8 - (k + 1)
    if strstrB name (lodPattern indexLOD) then (indexLOD : Int)
    else GetLODIndexLoop name k

def GetLODIndex (name : String) : Int := GetLODIndexLoop name.data 8

/-- An abstraction of the `%f` rendering used by `SetAttributeString`; the
decimal text of a float is irrelevant to every claim. -/
def fmtF (q : ℚ) : String := toString q

/-- `ExportNodeDraw`: when `surfaceId != 0`, link one `Draw` element with
attributes `index`, `name`, `material`, then `lod` only when `lod >= 0`,
then the fixed `mask`.  The surface-id→submesh-index, →surface-name and
→material-filename maps are passed as functions. -/
def ExportNodeDraw (surfaceMeshs : Int → ℕ) (surfaceNames : Int → String)
    (surfaceMaterials : Int → String) (n : RawNode) (lod : Int) : List Xml :=
  if n.surfaceId ≠ 0 then
    [Xml.elem "Draw"
      ([("index", toString (surfaceMeshs n.surfaceId)),
        ("name", surfaceNames n.surfaceId),
        ("material", surfaceMaterials n.surfaceId)] ++
       (if lod ≥ 0 then [("lod", toString lod)] else []) ++
       [("mask", "4294967295")]) []]
  else []

/-- `ExportNode`: emit the node's `Node` element with TRS attributes (the
quaternion re-ordered to x y z w on output), its own `Draw` (default
`lod = -1`), then, for a LOD group, one `Draw` per child tagged with
`GetLODIndex` of the child's name instead of recursing; otherwise recurse
into the children as `Node` elements. -/
def ExportNode (surfaceMeshs : Int → ℕ) (surfaceNames : Int → String)
    (surfaceMaterials : Int → String) : RawNode → Xml
  | .node nm t r s sid children =>
    let n := RawNode.node nm t r s sid children
    Xml.elem "Node"
      [("translation", fmtF t.x ++ " " ++ fmtF t.y ++ " " ++ fmtF t.z),
       ("rotation", fmtF r.x ++ " " ++ fmtF r.y ++ " " ++ fmtF r.z ++ " " ++ fmtF r.w),
       ("scale", fmtF s.x ++ " " ++ fmtF s.y ++ " " ++ fmtF s.z)]
      (ExportNodeDraw surfaceMeshs surfaceNames surfaceMaterials n (-1) ++
       (if IsNodeLODGrpup n then
          children.flatMap fun c =>
            ExportNodeDraw surfaceMeshs surfaceNames surfaceMaterials c
              (GetLODIndex c.name)
        else
          children.attach.map fun c =>
            ExportNode surfaceMeshs surfaceNames surfaceMaterials c.1))
decreasing_by
  simp only [RawNode.node.sizeOf_spec]
  have h := List.sizeOf_lt_of_mem c.2
  omega

/-- `ExportMeshXML`: build the scene document rooted at `Mesh` and save it;
returns `true` in every case. -/
def ExportMeshXML (meshFileName : String) (root : RawNode) (surfaceMeshs : Int → ℕ)
    (surfaceNames : Int → String) (surfaceMaterials : Int → String) : Xml × Bool :=
  (Xml.elem "Mesh" [("mesh", meshFileName)]
    [ExportNode surfaceMeshs surfaceNames surfaceMaterials root], true)

/-! ## Auxiliary definitions for the claim statements and witnesses -/

/-- A small concrete sub-model used for the counterexamples and witnesses. -/
def exSubModel : SubModel :=
  { vertices := [default]
    triangles := [⟨0, 0, 0⟩]
    surfaceName := "surf" }

/-- A node with `surfaceId = -1`. -/
def exNodeNeg : RawNode := RawNode.node "n" ⟨0,0,0⟩ ⟨1,0,0,0⟩ ⟨1,1,1⟩ (-1) []

/-- A node with `surfaceId = 0`. -/
def exNodeZero : RawNode := RawNode.node "n" ⟨0,0,0⟩ ⟨1,0,0,0⟩ ⟨1,1,1⟩ 0 []

/-! ## Prefix counts over the sub-model sequence -/

instance : Inhabited SubMeshHeader := ⟨⟨"", bounds0, 0, 0, 0⟩⟩

/-- Total index count contributed by submeshes `0 .. k-1` (the value of the
loop accumulator `numIndex` when submesh `k` is processed). -/
def icountBefore (models : List SubModel) (k : ℕ) : ℕ :=
  ((models.take k).map (fun m => m.triangles.length * 3)).sum

/-- Total vertex count contributed by submeshes `0 .. k-1` (the value of
`vertices.size()` when submesh `k` is processed in `ExportMeshData`). -/
def vcountBefore (models : List SubModel) (k : ℕ) : ℕ :=
  ((models.take k).map (fun m => m.vertices.length)).sum

/-- The `k`-th sub-model. -/
def mAt (models : List SubModel) (k : ℕ) : SubModel := models.getD k default

/-- The slice of the written index block contributed by submesh `k`: the
optimizer's output indices for that submesh, each shifted by the vertex
count of the preceding submeshes. -/
def idxBlock (opt : List RawVertex → List ℕ → OptResult)
    (models : List SubModel) (k : ℕ) : List ℕ :=
  ((opt (mAt models k).vertices (triIndices (mAt models k))).indices).map
    (· + vcountBefore models k)

/-- The single `Texture2D` element emitted for texture-usage slot `u`. -/
def texElem (textureFileNames : List String) (mat : RawMaterial) (u : ℕ) : Xml :=
  let path := GetTexture textureFileNames (mat.textures.getD u (-1)).toNat
  Xml.elem "Texture2D"
    [("name", "texAlbedo"),
     ("file_name", String.mk ((splitfilename path.data).1 ++ (splitfilename path.data).2)),
     ("min_filter", "GFX_NEAREST"),
     ("mag_filter", "GFX_LINEAR"),
     ("mipmap_mode", "GFX_NEAREST"),
     ("address_mode", "GFX_CLAMP_TO_EDGE")] []

/-- A material whose only non-sentinel slot is NORMAL. -/
def exMatNormalOnly : RawMaterial :=
  { name := "m", textures := [-1, -1, 0, -1, -1, -1, -1, -1, -1, -1, -1] }

/-- A material whose only non-sentinel slot is ALBEDO. -/
def exMatAlbedo : RawMaterial :=
  { name := "m", textures := [-1, -1, -1, -1, -1, -1, -1, 0, -1, -1, -1] }

/-- Concrete LOD nodes used by the C7 and C8 witnesses. -/
def exLOD0 : RawNode := RawNode.node "X_LOD0" ⟨0,0,0⟩ ⟨1,0,0,0⟩ ⟨1,1,1⟩ 7 []

def exLOD1 : RawNode := RawNode.node "X_LOD1" ⟨0,0,0⟩ ⟨1,0,0,0⟩ ⟨1,1,1⟩ 8 []

def exGroup : RawNode :=
  RawNode.node "X_LODGroup" ⟨1,2,3⟩ ⟨1,0,0,0⟩ ⟨1,1,1⟩ 5 [exLOD0, exLOD1]

/-- Specification-side definition for the refinement comparison (C10): the
basename of a path is the text after the last maximal run of `'/'`/`'\\'`
separators (equivalently, after the last separator character), empty when
the path ends in a separator. -/
def specBasename (s : List Char) : List Char :=
  (s.reverse.takeWhile (fun c => ¬ sepB c)).reverse

/-! ## Byte-length helper lemmas -/

theorem idOpt_contract : OptContract idOpt := by
  intro vs is
  exact ⟨List.Perm.refl _, rfl, fun h i hi => h i hi⟩

theorem bytesLen_append (a b : List Wr) : bytesLen (a ++ b) = bytesLen a + bytesLen b := by
  simp [bytesLen]

theorem bytesLen_nameChars (s : String) : bytesLen (nameChars s) = 260 := by
  have hlen : (nameChars s).length = 260 := by
    simp only [nameChars, List.length_map, List.length_append, List.length_take,
      List.length_replicate]
    omega
  have : ∀ l : List Char, bytesLen (l.map Wr.chr) = l.length := by
    intro l
    induction l with
    | nil => rfl
    | cons c t ih => simp [bytesLen, wrSize] at ih ⊢; omega
  calc bytesLen (nameChars s)
      = ((s.data.take 260) ++ List.replicate (260 - min s.data.length 260) nulC).length := by
        rw [nameChars]; exact this _
    _ = 260 := by simpa [nameChars] using hlen

theorem bytesLen_subMeshHeaderWr (h : SubMeshHeader) :
    bytesLen (subMeshHeaderWr h) = sizeofSubMeshHeader := by
  rw [subMeshHeaderWr, bytesLen_append, bytesLen_nameChars]
  rfl

theorem bytesLen_flatMap_subMeshHeaderWr (hs : List SubMeshHeader) :
    bytesLen (hs.flatMap subMeshHeaderWr) = sizeofSubMeshHeader * hs.length := by
  induction hs with
  | nil => rfl
  | cons h t ih =>
    rw [List.flatMap_cons, bytesLen_append, bytesLen_subMeshHeaderWr, ih]
    simp [List.length_cons]
    ring

theorem mkSubMeshHeaders_length (ms : List SubModel) :
    ∀ a, (mkSubMeshHeaders ms a).length = ms.length := by
  induction ms with
  | nil => intro a; rfl
  | cons m t ih => intro a; simp [mkSubMeshHeaders, ih]

theorem bytesLen_ExportMeshHeader (format : ℕ) (models : List SubModel) :
    bytesLen (ExportMeshHeader format models) =
      offsetofSubMeshHeaders + sizeofSubMeshHeader * models.length := by
  rw [ExportMeshHeader, meshHeaderWr, bytesLen_append, bytesLen_flatMap_subMeshHeaderWr]
  simp [mkMeshHeader, mkSubMeshHeaders_length]
  rfl

theorem bytesLen_indexBlockWr (idx : List ℕ) :
    bytesLen (indexBlockWr idx) = sizeofU32 * idx.length := by
  induction idx with
  | nil => rfl
  | cons i t ih =>
    simp [indexBlockWr, bytesLen, wrSize, sizeofU32] at ih ⊢
    omega

theorem triIndices_length (m : SubModel) :
    (triIndices m).length = m.triangles.length * 3 := by
  unfold triIndices
  induction m.triangles with
  | nil => rfl
  | cons t ts ih => simp [List.flatMap_cons] at ih ⊢; omega

/-! ## `meshDataLoop` helper lemmas -/

theorem meshDataLoop_fst_length {opt : List RawVertex → List ℕ → OptResult}
    (hopt : OptContract opt) (ms : List SubModel) :
    ∀ acc, (meshDataLoop opt acc ms).1.length =
      acc.1.length + (ms.map (fun m => m.triangles.length * 3)).sum := by
  induction ms with
  | nil => intro acc; simp [meshDataLoop]
  | cons m t ih =>
    intro acc
    rw [meshDataLoop, ih]
    have hi : (opt m.vertices (triIndices m)).indices.length = (triIndices m).length :=
      (hopt m.vertices (triIndices m)).2.1
    simp [hi, triIndices_length]
    ring

theorem meshDataLoop_snd_length {opt : List RawVertex → List ℕ → OptResult}
    (hopt : OptContract opt) (ms : List SubModel) :
    ∀ acc, (meshDataLoop opt acc ms).2.length =
      acc.2.length + (ms.map (fun m => m.vertices.length)).sum := by
  induction ms with
  | nil => intro acc; simp [meshDataLoop]
  | cons m t ih =>
    intro acc
    rw [meshDataLoop, ih]
    have hv : (opt m.vertices (triIndices m)).vertices.length = m.vertices.length :=
      ((hopt m.vertices (triIndices m)).1).length_eq
    simp [hv]
    ring

theorem sum_map_indexBytes (models : List SubModel) :
    (models.map (fun m => m.triangles.length * 3 * sizeofU32)).sum =
      4 * (models.map (fun m => m.triangles.length * 3)).sum := by
  induction models with
  | nil => rfl
  | cons m t ih => simp [sizeofU32] at ih ⊢; omega

/-! ## Claim C1: binary layout of the mesh header -/

/-- C1 counterexample: the claim asserts each per-submesh header record is
exactly 36 bytes (six floats and three u32, no other fields); in the written
file one record occupies 296 bytes, because the 260-byte `szName` array is
part of `SubMeshHeader` and is written with it. -/
theorem C1_counterexample :
    bytesLen ((mkMeshHeader 1 [exSubModel]).subMeshHeaders.flatMap subMeshHeaderWr) = 296 ∧
    ¬ bytesLen ((mkMeshHeader 1 [exSubModel]).subMeshHeaders.flatMap subMeshHeaderWr) = 1 * 36 := by
  have h : bytesLen ((mkMeshHeader 1 [exSubModel]).subMeshHeaders.flatMap subMeshHeaderWr) =
      sizeofSubMeshHeader * 1 := by
    rw [bytesLen_flatMap_subMeshHeaderWr]
    simp [mkMeshHeader, mkSubMeshHeaders_length]
  rw [h]
  exact ⟨rfl, by decide⟩

/-- C1 (amended): each per-submesh header record consists of the 260-byte
`szName` field followed by the six AABB floats and the three u32 fields
`baseVertex`, `firstIndex`, `indexCount` — 296 bytes per record; the index
block begins at byte offset `offsetof(MeshHeader, subMeshHeaders) +
numSubMeshes * sizeof(SubMeshHeader)` = `24 + 296 * numSubMeshes`, which is
exactly the written `indexBufferOffset`, and the vertex block begins at that
offset plus `indexBufferSize`, with no padding between regions. -/
theorem C1_mesh_layout (opt : List RawVertex → List ℕ → OptResult)
    (format : ℕ) (models : List SubModel) (hopt : OptContract opt) :
    (∀ h ∈ (mkMeshHeader format models).subMeshHeaders,
      subMeshHeaderWr h =
        nameChars h.szName ++
        [Wr.f32 h.aabb.minx, Wr.f32 h.aabb.miny, Wr.f32 h.aabb.minz,
         Wr.f32 h.aabb.maxx, Wr.f32 h.aabb.maxy, Wr.f32 h.aabb.maxz,
         Wr.u32 h.baseVertex, Wr.u32 h.firstIndex, Wr.u32 h.indexCount] ∧
      bytesLen (subMeshHeaderWr h) = 296) ∧
    bytesLen (ExportMeshHeader format models) = 24 + 296 * models.length ∧
    (mkMeshHeader format models).indexBufferOffset = 24 + 296 * models.length ∧
    (mkMeshHeader format models).vertexBufferOffset =
      (mkMeshHeader format models).indexBufferOffset +
        (mkMeshHeader format models).indexBufferSize ∧
    bytesLen (ExportMeshHeader format models ++
        indexBlockWr (meshDataArrays opt models).1) =
      (mkMeshHeader format models).vertexBufferOffset := by
  refine ⟨fun h _ => ⟨rfl, bytesLen_subMeshHeaderWr h⟩, bytesLen_ExportMeshHeader format models,
    rfl, rfl, ?_⟩
  rw [bytesLen_append, bytesLen_ExportMeshHeader, bytesLen_indexBlockWr]
  have hlen := meshDataLoop_fst_length hopt models ([], [])
  simp only [meshDataArrays, hlen, List.length_nil, Nat.zero_add]
  show 24 + 296 * models.length + 4 * (models.map (fun m => m.triangles.length * 3)).sum =
    offsetofSubMeshHeaders + sizeofSubMeshHeader * models.length +
      (models.map (fun m => m.triangles.length * 3 * sizeofU32)).sum
  rw [sum_map_indexBytes]
  rfl

/-- C1 witness: the layout theorem applied to the identity optimizer and a
one-submesh model. -/
theorem C1_mesh_layout_witness :
    bytesLen (ExportMeshHeader 1 [exSubModel] ++
        indexBlockWr (meshDataArrays idOpt [exSubModel]).1) =
      (mkMeshHeader 1 [exSubModel]).vertexBufferOffset :=
  (C1_mesh_layout idOpt 1 [exSubModel] idOpt_contract).2.2.2.2

/-! ## Claim C2: boolean results of the export operations -/

/-- C2 counterexample: when the output file cannot be created, `ExportMesh`
writes nothing and still returns `true` — it does not report failure. -/
theorem C2_counterexample : ExportMesh false idOpt 0 [] = (none, true) := rfl

/-- C2 (amended): every export operation returns `true` unconditionally;
in particular `ExportMesh` returns `true` even when `fopen` fails (in which
case no artifact is produced), so the boolean result carries no failure
information. -/
theorem C2_export_returns_true (fopenOk : Bool) (opt : List RawVertex → List ℕ → OptResult)
    (format : ℕ) (models : List SubModel) (format2 : ℕ) (texs : List String)
    (mats : List RawMaterial) (mfn : String) (root : RawNode)
    (sm : Int → ℕ) (sn : Int → String) (smat : Int → String) :
    (ExportMesh fopenOk opt format models).2 = true ∧
    ((ExportMesh fopenOk opt format models).1 = none ↔ fopenOk = false) ∧
    (ExportMaterial format2 texs mats).2 = true ∧
    (ExportMeshXML mfn root sm sn smat).2 = true := by
  refine ⟨rfl, ?_, rfl, rfl⟩
  cases fopenOk <;> simp [ExportMesh]

/-- C2 witness: a failed `fopen` yields no artifact while the result is
`true`. -/
theorem C2_witness : (ExportMesh false idOpt 0 []).1 = none :=
  (C2_export_returns_true false idOpt 0 [] 0 [] [] "" (RawNode.node "" ⟨0,0,0⟩ ⟨1,0,0,0⟩ ⟨1,1,1⟩ 0 [])
    (fun _ => 0) (fun _ => "") (fun _ => "")).2.1.mpr rfl

/-! ## Claim C9: Draw emission and the surface-id sentinel -/

/-- C9 counterexample: the claim says a node whose `surfaceId` is the
sentinel `-1` gets no `Draw`; the writer tests only `surfaceId != 0`, so a
node with `surfaceId = -1` does get a `Draw` element. -/
theorem C9_counterexample :
    (ExportNodeDraw (fun _ => 0) (fun _ => "") (fun _ => "") exNodeNeg (-1)).length = 1 ∧
    exNodeNeg.surfaceId = -1 := ⟨rfl, rfl⟩

/-- C9 (amended): a `Draw` child is appended exactly when `surfaceId ≠ 0`;
the `-1` sentinel of the data model is not treated as "no surface" by the
writer. -/
theorem C9_draw_iff (sm : Int → ℕ) (sn : Int → String) (smat : Int → String)
    (n : RawNode) (lod : Int) :
    (ExportNodeDraw sm sn smat n lod = [] ↔ n.surfaceId = 0) ∧
    (∀ x ∈ ExportNodeDraw sm sn smat n lod, x.tag = "Draw") := by
  constructor
  · unfold ExportNodeDraw
    by_cases h : n.surfaceId = 0 <;> simp [h]
  · intro x hx
    unfold ExportNodeDraw at hx
    by_cases h : n.surfaceId = 0 <;> simp [h] at hx
    rw [hx]
    rfl

/-- C9 witness: applied at a zero-surface node. -/
theorem C9_witness :
    ExportNodeDraw (fun _ => 0) (fun _ => "") (fun _ => "") exNodeZero (-1) = [] :=
  (C9_draw_iff (fun _ => 0) (fun _ => "") (fun _ => "") exNodeZero (-1)).1.mpr rfl

/-! ## Claim C6: stride determinism and vertex-block size -/

theorem bytesLen_vertexWr (format : ℕ) (v : RawVertex) :
    bytesLen (vertexWr format v) = GetVertexSize format := by
  by_cases h1 : format &&& RAW_VERTEX_ATTRIBUTE_POSITION ≠ 0 <;>
  by_cases h2 : format &&& RAW_VERTEX_ATTRIBUTE_NORMAL ≠ 0 <;>
  by_cases h3 : format &&& RAW_VERTEX_ATTRIBUTE_BINORMAL ≠ 0 <;>
  by_cases h4 : format &&& RAW_VERTEX_ATTRIBUTE_COLOR ≠ 0 <;>
  by_cases h5 : format &&& RAW_VERTEX_ATTRIBUTE_UV0 ≠ 0 <;>
  by_cases h6 : format &&& RAW_VERTEX_ATTRIBUTE_UV1 ≠ 0 <;>
  by_cases h7 : format &&& RAW_VERTEX_ATTRIBUTE_JOINT_INDICES ≠ 0 <;>
  by_cases h8 : format &&& RAW_VERTEX_ATTRIBUTE_JOINT_WEIGHTS ≠ 0 <;>
  simp [vertexWr, GetVertexSize, h1, h2, h3, h4, h5, h6, h7, h8, bytesLen, wrSize, sizeofFloat]

theorem bytesLen_vertexBlockWr (format : ℕ) (vs : List RawVertex) :
    bytesLen (vertexBlockWr format vs) = vs.length * GetVertexSize format := by
  induction vs with
  | nil => simp [vertexBlockWr, bytesLen]
  | cons v t ih =>
    rw [vertexBlockWr, List.flatMap_cons, bytesLen_append, bytesLen_vertexWr]
    rw [vertexBlockWr] at ih
    rw [ih]
    simp [List.length_cons]
    ring

/-- C6: for every attribute bitset the per-vertex stride equals the sum of
the enabled attribute sizes (POSITION 12, NORMAL 12, BINORMAL 12, COLOR 12
with the w component never written, UV0 8, UV1 8, JOINT_INDICES 16,
JOINT_WEIGHTS 16), independently of the vertex data; and the byte count of
the written vertex block equals the sum over submeshes of vertexCount times
the stride, which is the header's `vertexBufferSize`. -/
theorem C6_stride (format : ℕ) (models : List SubModel)
    (opt : List RawVertex → List ℕ → OptResult) (hopt : OptContract opt) :
    (GetVertexSize format =
      (if format &&& RAW_VERTEX_ATTRIBUTE_POSITION ≠ 0 then 12 else 0) +
      (if format &&& RAW_VERTEX_ATTRIBUTE_NORMAL ≠ 0 then 12 else 0) +
      (if format &&& RAW_VERTEX_ATTRIBUTE_BINORMAL ≠ 0 then 12 else 0) +
      (if format &&& RAW_VERTEX_ATTRIBUTE_COLOR ≠ 0 then 12 else 0) +
      (if format &&& RAW_VERTEX_ATTRIBUTE_UV0 ≠ 0 then 8 else 0) +
      (if format &&& RAW_VERTEX_ATTRIBUTE_UV1 ≠ 0 then 8 else 0) +
      (if format &&& RAW_VERTEX_ATTRIBUTE_JOINT_INDICES ≠ 0 then 16 else 0) +
      (if format &&& RAW_VERTEX_ATTRIBUTE_JOINT_WEIGHTS ≠ 0 then 16 else 0)) ∧
    (∀ v : RawVertex, bytesLen (vertexWr format v) = GetVertexSize format) ∧
    (∀ (v : RawVertex) (q : ℚ),
      vertexWr format { v with color := { v.color with w := q } } = vertexWr format v) ∧
    bytesLen (vertexBlockWr format (meshDataArrays opt models).2) =
      (models.map (fun m => m.vertices.length * GetVertexSize format)).sum ∧
    (mkMeshHeader format models).vertexBufferSize =
      (models.map (fun m => m.vertices.length * GetVertexSize format)).sum := by
  refine ⟨?_, bytesLen_vertexWr format, fun v q => rfl, ?_, rfl⟩
  · by_cases h1 : format &&& RAW_VERTEX_ATTRIBUTE_POSITION ≠ 0 <;>
    by_cases h2 : format &&& RAW_VERTEX_ATTRIBUTE_NORMAL ≠ 0 <;>
    by_cases h3 : format &&& RAW_VERTEX_ATTRIBUTE_BINORMAL ≠ 0 <;>
    by_cases h4 : format &&& RAW_VERTEX_ATTRIBUTE_COLOR ≠ 0 <;>
    by_cases h5 : format &&& RAW_VERTEX_ATTRIBUTE_UV0 ≠ 0 <;>
    by_cases h6 : format &&& RAW_VERTEX_ATTRIBUTE_UV1 ≠ 0 <;>
    by_cases h7 : format &&& RAW_VERTEX_ATTRIBUTE_JOINT_INDICES ≠ 0 <;>
    by_cases h8 : format &&& RAW_VERTEX_ATTRIBUTE_JOINT_WEIGHTS ≠ 0 <;>
    simp [GetVertexSize, h1, h2, h3, h4, h5, h6, h7, h8, sizeofFloat]
  · rw [bytesLen_vertexBlockWr]
    have hlen := meshDataLoop_snd_length hopt models ([], [])
    simp only [meshDataArrays, hlen, List.length_nil, Nat.zero_add]
    rw [List.sum_map_mul_right]

/-- C6 witness: the vertex block of a one-submesh model under the identity
optimizer. -/
theorem C6_stride_witness :
    bytesLen (vertexBlockWr 3 (meshDataArrays idOpt [exSubModel]).2) =
      ([exSubModel].map (fun m => m.vertices.length * GetVertexSize 3)).sum :=
  (C6_stride 3 [exSubModel] idOpt idOpt_contract).2.2.2.1

theorem icountBefore_cons_succ (m : SubModel) (t : List SubModel) (k : ℕ) :
    icountBefore (m :: t) (k + 1) = m.triangles.length * 3 + icountBefore t k := by
  simp [icountBefore, List.take_succ_cons]

theorem vcountBefore_cons_succ (m : SubModel) (t : List SubModel) (k : ℕ) :
    vcountBefore (m :: t) (k + 1) = m.vertices.length + vcountBefore t k := by
  simp [vcountBefore, List.take_succ_cons]

theorem vcountBefore_add_le (models : List SubModel) :
    ∀ k, k < models.length →
      vcountBefore models k + (mAt models k).vertices.length ≤
        (models.map (fun m => m.vertices.length)).sum := by
  induction models with
  | nil => intro k hk; simp at hk
  | cons m t ih =>
    intro k hk
    cases k with
    | zero => simp [vcountBefore, mAt]
    | succ k =>
      rw [vcountBefore_cons_succ]
      have hk' : k < t.length := by simpa using hk
      have h2 := ih k hk'
      have hmat : mAt (m :: t) (k + 1) = mAt t k := rfl
      rw [hmat]
      simp only [List.map_cons, List.sum_cons]
      omega

/-! ## Field lemmas for `mkSubMeshHeaders` -/

theorem mkSubMeshHeaders_triple (ms : List SubModel) :
    ∀ a, (mkSubMeshHeaders ms a).map (fun h => (h.baseVertex, h.firstIndex, h.indexCount)) =
      (List.range ms.length).map
        (fun k => (0, a + icountBefore ms k, (mAt ms k).triangles.length * 3)) := by
  induction ms with
  | nil => intro a; rfl
  | cons m t ih =>
    intro a
    rw [mkSubMeshHeaders, List.map_cons, List.length_cons, List.range_succ_eq_map,
      List.map_cons, List.map_map, ih (a + m.triangles.length * 3)]
    refine List.cons_eq_cons.mpr ⟨?_, ?_⟩
    · simp [icountBefore, mAt]
    · apply List.map_congr_left
      intro k _
      have hmat : mAt (m :: t) (k + 1) = mAt t k := rfl
      simp only [Function.comp_apply, icountBefore_cons_succ, hmat]
      refine congrArg (fun x => ((0 : ℕ), x, (mAt t k).triangles.length * 3)) ?_
      omega

theorem mkSubMeshHeaders_aabb (ms : List SubModel) :
    ∀ a, (mkSubMeshHeaders ms a).map (fun h => h.aabb) =
      ms.map (fun m => boundsOf m.vertices) := by
  induction ms with
  | nil => intro a; rfl
  | cons m t ih =>
    intro a
    rw [mkSubMeshHeaders, List.map_cons, List.map_cons, ih]

theorem mkSubMeshHeaders_szName (ms : List SubModel) :
    ∀ a, (mkSubMeshHeaders ms a).map (fun h => h.szName) =
      ms.map (fun m => m.surfaceName) := by
  induction ms with
  | nil => intro a; rfl
  | cons m t ih =>
    intro a
    rw [mkSubMeshHeaders, List.map_cons, List.map_cons, ih]

/-! ## Closed form of `ExportMeshData`'s accumulation loop -/

theorem meshDataLoop_spec {opt : List RawVertex → List ℕ → OptResult}
    (hopt : OptContract opt) (ms : List SubModel) :
    ∀ acc : List ℕ × List RawVertex,
      (meshDataLoop opt acc ms).1 =
        acc.1 ++ (List.range ms.length).flatMap (fun k =>
          ((opt (mAt ms k).vertices (triIndices (mAt ms k))).indices).map
            (· + (acc.2.length + vcountBefore ms k))) ∧
      (meshDataLoop opt acc ms).2 =
        acc.2 ++ ms.flatMap (fun m => (opt m.vertices (triIndices m)).vertices) := by
  induction ms with
  | nil => intro acc; simp [meshDataLoop]
  | cons m t ih =>
    intro acc
    obtain ⟨ih1, ih2⟩ := ih
      (acc.1 ++ (opt m.vertices (triIndices m)).indices.map (· + acc.2.length),
       acc.2 ++ (opt m.vertices (triIndices m)).vertices)
    have hv : (opt m.vertices (triIndices m)).vertices.length = m.vertices.length :=
      ((hopt m.vertices (triIndices m)).1).length_eq
    constructor
    · rw [meshDataLoop, ih1]
      rw [List.length_cons, List.range_succ_eq_map, List.flatMap_cons, List.flatMap_map,
        List.append_assoc]
      have hhead :
          ((opt (mAt (m :: t) 0).vertices (triIndices (mAt (m :: t) 0))).indices).map
              (· + (acc.2.length + vcountBefore (m :: t) 0)) =
            (opt m.vertices (triIndices m)).indices.map (· + acc.2.length) := by
        have hmat : mAt (m :: t) 0 = m := rfl
        simp [hmat, vcountBefore]
      have htail : (List.range t.length).flatMap
            (fun k => ((opt (mAt t k).vertices (triIndices (mAt t k))).indices).map
              (· + ((acc.2 ++ (opt m.vertices (triIndices m)).vertices).length +
                vcountBefore t k))) =
          (List.range t.length).flatMap
            ((fun k => ((opt (mAt (m :: t) k).vertices (triIndices (mAt (m :: t) k))).indices).map
              (· + (acc.2.length + vcountBefore (m :: t) k))) ∘ (· + 1)) := by
        apply List.flatMap_congr
        intro k _
        have hmat : mAt (m :: t) (k + 1) = mAt t k := rfl
        simp only [Function.comp_apply, hmat, vcountBefore_cons_succ, List.length_append,
          hv, Nat.add_assoc]
      rw [htail, hhead]
      rfl
    · rw [meshDataLoop, ih2]
      rw [List.flatMap_cons, List.append_assoc]

theorem meshDataArrays_fst {opt : List RawVertex → List ℕ → OptResult}
    (hopt : OptContract opt) (models : List SubModel) :
    (meshDataArrays opt models).1 =
      (List.range models.length).flatMap (idxBlock opt models) := by
  have h := (meshDataLoop_spec hopt models ([], [])).1
  simpa [meshDataArrays, idxBlock] using h

theorem meshDataArrays_snd {opt : List RawVertex → List ℕ → OptResult}
    (hopt : OptContract opt) (models : List SubModel) :
    (meshDataArrays opt models).2 =
      models.flatMap (fun m => (opt m.vertices (triIndices m)).vertices) := by
  simpa [meshDataArrays] using (meshDataLoop_spec hopt models ([], [])).2

theorem triIndices_lt (m : SubModel)
    (h : ∀ t ∈ m.triangles,
      t.v0 < m.vertices.length ∧ t.v1 < m.vertices.length ∧ t.v2 < m.vertices.length) :
    ∀ i ∈ triIndices m, i < m.vertices.length := by
  intro i hi
  rw [triIndices, List.mem_flatMap] at hi
  obtain ⟨t, ht, hm⟩ := hi
  obtain ⟨h0, h1, h2⟩ := h t ht
  simp only [List.mem_cons, List.mem_singleton, List.not_mem_nil, or_false] at hm
  rcases hm with rfl | rfl | rfl <;> assumption

theorem mAt_mem (models : List SubModel) (k : ℕ) (hk : k < models.length) :
    mAt models k ∈ models := by
  rw [mAt, List.getD_eq_getElem models default hk]
  exact List.getElem_mem hk

/-! ## Claim C4: index rewriting and submesh ranges -/

/-- C4: for material-partitioned sub-models whose triangles index within
their local vertex arrays, submesh `k`'s `firstIndex` is the sum of the
`indexCount`s of submeshes `0..k-1` and its `indexCount` is 3 times its
triangle count (so the ranges tile the index block contiguously in emitted
order); every index written for submesh `k` is a local vertex index plus the
total vertex count of submeshes `0..k-1`; every written index is below the
total vertex count; and every `SubMeshHeader.baseVertex` is written as 0. -/
theorem C4_index_rewriting (opt : List RawVertex → List ℕ → OptResult)
    (format : ℕ) (models : List SubModel) (hopt : OptContract opt)
    (hvalid : ∀ m ∈ models, ∀ t ∈ m.triangles,
      t.v0 < m.vertices.length ∧ t.v1 < m.vertices.length ∧ t.v2 < m.vertices.length) :
    ((mkMeshHeader format models).subMeshHeaders.map
        (fun h => (h.baseVertex, h.firstIndex, h.indexCount)) =
      (List.range models.length).map
        (fun k => (0, icountBefore models k, (mAt models k).triangles.length * 3))) ∧
    ((meshDataArrays opt models).1 =
      (List.range models.length).flatMap (idxBlock opt models)) ∧
    (∀ k, k < models.length →
      (idxBlock opt models k).length = (mAt models k).triangles.length * 3) ∧
    (∀ k, k < models.length → ∀ i ∈ idxBlock opt models k,
      ∃ l, l < (mAt models k).vertices.length ∧ i = l + vcountBefore models k) ∧
    (∀ i ∈ (meshDataArrays opt models).1, i < (meshDataArrays opt models).2.length) := by
  have hblock : ∀ k, k < models.length → ∀ i ∈ idxBlock opt models k,
      ∃ l, l < (mAt models k).vertices.length ∧ i = l + vcountBefore models k := by
    intro k hk i hi
    rw [idxBlock, List.mem_map] at hi
    obtain ⟨j, hj, rfl⟩ := hi
    refine ⟨j, ?_, rfl⟩
    exact (hopt (mAt models k).vertices (triIndices (mAt models k))).2.2
      (triIndices_lt (mAt models k) (hvalid (mAt models k) (mAt_mem models k hk))) j hj
  refine ⟨?_, meshDataArrays_fst hopt models, ?_, hblock, ?_⟩
  · have h := mkSubMeshHeaders_triple models 0
    simpa [mkMeshHeader] using h
  · intro k hk
    rw [idxBlock, List.length_map, (hopt _ _).2.1, triIndices_length]
  · intro i hi
    rw [meshDataArrays_fst hopt models, List.mem_flatMap] at hi
    obtain ⟨k, hkr, hik⟩ := hi
    have hk := List.mem_range.mp hkr
    obtain ⟨l, hl, rfl⟩ := hblock k hk i hik
    have hle := vcountBefore_add_le models k hk
    have hsnd := meshDataLoop_snd_length hopt models ([], [])
    simp only [meshDataArrays]
    rw [hsnd]
    simp only [List.length_nil, Nat.zero_add]
    omega

/-- C4 witness: the header-field conjunct at a concrete one-submesh model. -/
theorem C4_witness :
    (mkMeshHeader 1 [exSubModel]).subMeshHeaders.map
        (fun h => (h.baseVertex, h.firstIndex, h.indexCount)) =
      (List.range 1).map
        (fun k => (0, icountBefore [exSubModel] k, (mAt [exSubModel] k).triangles.length * 3)) :=
  (C4_index_rewriting idOpt 1 [exSubModel] idOpt_contract (by decide)).1

/-! ## AABB fold lemmas -/

theorem updMin_le_self (a p : ℚ) : updMin a p ≤ a := by
  rw [updMin]
  split_ifs with h
  · exact le_of_lt h
  · exact le_refl a

theorem updMin_le_arg (a p : ℚ) : updMin a p ≤ p := by
  rw [updMin]
  split_ifs with h
  · exact le_refl p
  · exact le_of_not_lt h

theorem updMax_ge_self (a p : ℚ) : a ≤ updMax a p := by
  rw [updMax]
  split_ifs with h
  · exact le_of_lt h
  · exact le_refl a

theorem updMax_ge_arg (a p : ℚ) : p ≤ updMax a p := by
  rw [updMax]
  split_ifs with h
  · exact le_refl p
  · exact le_of_not_lt h

theorem foldl_boundsStep_eq (vs : List RawVertex) :
    ∀ b : Bounds, vs.foldl boundsStep b =
      ⟨vs.foldl (fun a v => updMin a v.position.x) b.minx,
       vs.foldl (fun a v => updMin a v.position.y) b.miny,
       vs.foldl (fun a v => updMin a v.position.z) b.minz,
       vs.foldl (fun a v => updMax a v.position.x) b.maxx,
       vs.foldl (fun a v => updMax a v.position.y) b.maxy,
       vs.foldl (fun a v => updMax a v.position.z) b.maxz⟩ := by
  induction vs with
  | nil => intro b; rfl
  | cons v t ih =>
    intro b
    rw [List.foldl_cons, ih (boundsStep b v)]
    rfl

theorem foldl_updMin_le_init (f : RawVertex → ℚ) (vs : List RawVertex) :
    ∀ b, vs.foldl (fun a v => updMin a (f v)) b ≤ b := by
  induction vs with
  | nil => intro b; exact le_refl b
  | cons v t ih =>
    intro b
    rw [List.foldl_cons]
    exact le_trans (ih (updMin b (f v))) (updMin_le_self b (f v))

theorem foldl_updMin_le_mem (f : RawVertex → ℚ) (vs : List RawVertex) (v : RawVertex)
    (hv : v ∈ vs) : ∀ b, vs.foldl (fun a v => updMin a (f v)) b ≤ f v := by
  induction vs with
  | nil => cases hv
  | cons m t ih =>
    intro b
    rw [List.foldl_cons]
    rcases List.mem_cons.mp hv with rfl | hmem
    · exact le_trans (foldl_updMin_le_init f t (updMin b (f v))) (updMin_le_arg b (f v))
    · exact ih hmem (updMin b (f m))

theorem foldl_updMax_ge_init (f : RawVertex → ℚ) (vs : List RawVertex) :
    ∀ b, b ≤ vs.foldl (fun a v => updMax a (f v)) b := by
  induction vs with
  | nil => intro b; exact le_refl b
  | cons v t ih =>
    intro b
    rw [List.foldl_cons]
    exact le_trans (updMax_ge_self b (f v)) (ih (updMax b (f v)))

theorem foldl_updMax_ge_mem (f : RawVertex → ℚ) (vs : List RawVertex) (v : RawVertex)
    (hv : v ∈ vs) : ∀ b, f v ≤ vs.foldl (fun a v => updMax a (f v)) b := by
  induction vs with
  | nil => cases hv
  | cons m t ih =>
    intro b
    rw [List.foldl_cons]
    rcases List.mem_cons.mp hv with rfl | hmem
    · exact le_trans (updMax_ge_arg b (f v)) (foldl_updMax_ge_init f t (updMax b (f v)))
    · exact ih hmem (updMax b (f m))

theorem boundsOf_le_of_mem (vs : List RawVertex) (v : RawVertex) (hv : v ∈ vs) :
    (boundsOf vs).minx ≤ v.position.x ∧ v.position.x ≤ (boundsOf vs).maxx ∧
    (boundsOf vs).miny ≤ v.position.y ∧ v.position.y ≤ (boundsOf vs).maxy ∧
    (boundsOf vs).minz ≤ v.position.z ∧ v.position.z ≤ (boundsOf vs).maxz := by
  rw [boundsOf, foldl_boundsStep_eq]
  exact ⟨foldl_updMin_le_mem _ vs v hv _, foldl_updMax_ge_mem _ vs v hv _,
    foldl_updMin_le_mem _ vs v hv _, foldl_updMax_ge_mem _ vs v hv _,
    foldl_updMin_le_mem _ vs v hv _, foldl_updMax_ge_mem _ vs v hv _⟩

/-! ## Claim C5: AABB soundness -/

/-- C5: for each submesh the header AABB is the min/max fold over that
partition's vertices; every position emitted in that submesh's vertex
segment (the optimizer's permutation of the partition) lies within the
bounds; with at least one vertex `min ≤ max` holds componentwise; a
zero-vertex partition keeps the sentinel `(FLT_MAX, -FLT_MAX)` bounds. -/
theorem C5_bounds (opt : List RawVertex → List ℕ → OptResult) (format : ℕ)
    (models : List SubModel) (hopt : OptContract opt) :
    ((meshDataArrays opt models).2 =
      models.flatMap (fun m => (opt m.vertices (triIndices m)).vertices)) ∧
    ∀ k, k < models.length →
      (((mkMeshHeader format models).subMeshHeaders.getD k default).aabb =
        boundsOf (mAt models k).vertices) ∧
      (∀ v ∈ (opt (mAt models k).vertices (triIndices (mAt models k))).vertices,
        (boundsOf (mAt models k).vertices).minx ≤ v.position.x ∧
        v.position.x ≤ (boundsOf (mAt models k).vertices).maxx ∧
        (boundsOf (mAt models k).vertices).miny ≤ v.position.y ∧
        v.position.y ≤ (boundsOf (mAt models k).vertices).maxy ∧
        (boundsOf (mAt models k).vertices).minz ≤ v.position.z ∧
        v.position.z ≤ (boundsOf (mAt models k).vertices).maxz) ∧
      ((mAt models k).vertices ≠ [] →
        (boundsOf (mAt models k).vertices).minx ≤ (boundsOf (mAt models k).vertices).maxx ∧
        (boundsOf (mAt models k).vertices).miny ≤ (boundsOf (mAt models k).vertices).maxy ∧
        (boundsOf (mAt models k).vertices).minz ≤ (boundsOf (mAt models k).vertices).maxz) ∧
      ((mAt models k).vertices = [] → boundsOf (mAt models k).vertices = bounds0) := by
  refine ⟨meshDataArrays_snd hopt models, ?_⟩
  intro k hk
  refine ⟨?_, ?_, ?_, ?_⟩
  · have hlen : k < (mkSubMeshHeaders models 0).length := by
      rw [mkSubMeshHeaders_length]; exact hk
    have hmap := congrArg (fun l => l.getD k bounds0) (mkSubMeshHeaders_aabb models 0)
    simp only [mkMeshHeader]
    calc ((mkSubMeshHeaders models 0).getD k default).aabb
        = ((mkSubMeshHeaders models 0).map (fun h => h.aabb)).getD k bounds0 := by
          rw [List.getD_eq_getElem _ _ hlen,
            List.getD_eq_getElem _ _ (by rw [List.length_map]; exact hlen),
            List.getElem_map]
      _ = (models.map (fun m => boundsOf m.vertices)).getD k bounds0 := hmap
      _ = boundsOf (mAt models k).vertices := by
          rw [List.getD_eq_getElem _ _ (by rw [List.length_map]; exact hk),
            List.getElem_map, mAt, List.getD_eq_getElem _ _ hk]
  · intro v hvmem
    have hmem : v ∈ (mAt models k).vertices :=
      ((hopt (mAt models k).vertices (triIndices (mAt models k))).1).mem_iff.mp hvmem
    obtain ⟨a, b, c, d, e, f⟩ := boundsOf_le_of_mem (mAt models k).vertices v hmem
    exact ⟨a, b, c, d, e, f⟩
  · intro hne
    obtain ⟨v, hvmem⟩ := List.exists_mem_of_ne_nil (mAt models k).vertices hne
    obtain ⟨a, b, c, d, e, f⟩ := boundsOf_le_of_mem (mAt models k).vertices v hvmem
    exact ⟨le_trans a b, le_trans c d, le_trans e f⟩
  · intro hnil
    rw [hnil]
    rfl

/-- C5 witness: the bounds theorem applied to the identity optimizer and a
concrete one-vertex submesh. -/
theorem C5_witness :
    (boundsOf (mAt [exSubModel] 0).vertices).minx ≤ (default : RawVertex).position.x ∧
    (default : RawVertex).position.x ≤ (boundsOf (mAt [exSubModel] 0).vertices).maxx ∧
    (boundsOf (mAt [exSubModel] 0).vertices).miny ≤ (default : RawVertex).position.y ∧
    (default : RawVertex).position.y ≤ (boundsOf (mAt [exSubModel] 0).vertices).maxy ∧
    (boundsOf (mAt [exSubModel] 0).vertices).minz ≤ (default : RawVertex).position.z ∧
    (default : RawVertex).position.z ≤ (boundsOf (mAt [exSubModel] 0).vertices).maxz :=
  ((C5_bounds idOpt 1 [exSubModel] idOpt_contract).2 0 (by decide)).2.1 default
    (List.mem_singleton.mpr rfl)

/-! ## Claim C10: `splitfilename` -/

theorem takeWhile_append_of_all (p : Char → Bool) (u v : List Char)
    (h : ∀ x ∈ u, p x) : (u ++ v).takeWhile p = u ++ v.takeWhile p := by
  induction u with
  | nil => simp
  | cons c t ih =>
    simp only [List.cons_append, List.takeWhile_cons, h c (by simp)]
    simp only [if_true, ih (fun x hx => h x (by simp [hx]))]

theorem takeWhile_eq_nil_of_all_not (p : Char → Bool) (u : List Char)
    (h : ∀ x ∈ u, ¬ p x) : u.takeWhile p = [] := by
  cases u with
  | nil => rfl
  | cons c t =>
    simp only [List.takeWhile_cons]
    have := h c (by simp)
    simp [this]

theorem takeWhile_append_of_exists (p : Char → Bool) (u v : List Char)
    (hu : ∃ x ∈ u, ¬ p x) : (u ++ v).takeWhile p = u.takeWhile p := by
  induction u with
  | nil => obtain ⟨x, hx, _⟩ := hu; cases hx
  | cons c t ih =>
    simp only [List.cons_append, List.takeWhile_cons]
    by_cases hc : p c
    · simp only [hc, if_true]
      obtain ⟨x, hx, hpx⟩ := hu
      rcases List.mem_cons.mp hx with rfl | hxt
      · exact absurd hc hpx
      · rw [ih ⟨x, hxt, hpx⟩]
    · simp [hc]

theorem specBasename_all_not_sep (v : List Char) (h : ∀ x ∈ v, ¬ sepB x) :
    specBasename v = v := by
  rw [specBasename, List.takeWhile_eq_self_iff.mpr, List.reverse_reverse]
  intro x hx
  simpa using h x (List.mem_reverse.mp hx)

theorem specBasename_append_of_exists (u v : List Char) (hv : ∃ x ∈ v, sepB x) :
    specBasename (u ++ v) = specBasename v := by
  rw [specBasename, specBasename, List.reverse_append,
    takeWhile_append_of_exists _ v.reverse u.reverse]
  obtain ⟨x, hx, hpx⟩ := hv
  exact ⟨x, List.mem_reverse.mpr hx, by simpa using hpx⟩

theorem dropWhile_head_not (p : Char → Bool) (l : List Char) :
    ∀ c t, l.dropWhile p = c :: t → ¬ p c := by
  induction l with
  | nil => intro c t h; cases h
  | cons a l ih =>
    intro c t h
    rw [List.dropWhile_cons] at h
    by_cases ha : p a
    · simp only [ha, if_true] at h
      exact ih c t h
    · simp only [ha, if_false] at h
      cases h
      exact ha

theorem baseFrom_eq_spec (n : ℕ) : ∀ rest : List Char, rest.length ≤ n → ∀ base,
    baseFrom base rest = if rest.any sepB then specBasename rest else base := by
  induction n with
  | zero =>
    intro rest hlen base
    have : rest = [] := List.eq_nil_of_length_eq_zero (Nat.le_zero.mp hlen)
    subst this
    simp [baseFrom]
  | succ n ih =>
    intro rest hlen base
    match rest with
    | [] => simp [baseFrom]
    | c :: t =>
      rw [baseFrom]
      by_cases hc : sepB c
      · simp only [hc, if_true]
        have hany : (c :: t).any sepB = true := by simp [hc]
        rw [hany, if_pos rfl]
        have htw : ∀ x ∈ t.takeWhile sepB, sepB x := fun x hx => List.mem_takeWhile_imp hx
        cases hre : (t.dropWhile sepB).isEmpty
        · -- non-empty remainder: base becomes the remainder, scan continues
          have hne : t.dropWhile sepB ≠ [] := by
            intro h; rw [h] at hre; cases hre
          simp only [hre, Bool.false_eq_true, if_false]
          have hdecomp : c :: t = (c :: t.takeWhile sepB) ++ t.dropWhile sepB := by
            simp [List.takeWhile_append_dropWhile]
          have hhead := List.head_cons_tail (t.dropWhile sepB) hne
          have hheadn : ¬ sepB ((t.dropWhile sepB).head hne) :=
            dropWhile_head_not sepB t _ _ hhead.symm
          have hlen2 : (t.dropWhile sepB).tail.length ≤ n := by
            have h1 : (t.dropWhile sepB).length ≤ t.length :=
              (List.dropWhile_suffix sepB).sublist.length_le
            have h2 : (t.dropWhile sepB).tail.length = (t.dropWhile sepB).length - 1 :=
              List.length_tail _
            have h3 : t.length ≤ n := by simpa using hlen
            have h4 : 0 < (t.dropWhile sepB).length := List.length_pos.mpr hne
            omega
          rw [ih (t.dropWhile sepB).tail hlen2 (t.dropWhile sepB)]
          have hdecomp2 : c :: t =
              (c :: t.takeWhile sepB ++ [(t.dropWhile sepB).head hne]) ++
                (t.dropWhile sepB).tail := by
            simp only [List.cons_append, List.append_assoc, List.singleton_append,
              List.nil_append]
            rw [hhead, List.takeWhile_append_dropWhile]
          by_cases hta : (t.dropWhile sepB).tail.any sepB
          · rw [if_pos hta]
            have hsep : ∃ x ∈ (t.dropWhile sepB).tail, sepB x := by
              obtain ⟨x, hx, hpx⟩ := List.any_eq_true.mp hta
              exact ⟨x, hx, hpx⟩
            refine Eq.symm ?_
            calc specBasename (c :: t)
                = specBasename ((c :: t.takeWhile sepB ++ [(t.dropWhile sepB).head hne]) ++
                    (t.dropWhile sepB).tail) := congrArg specBasename hdecomp2
              _ = specBasename (t.dropWhile sepB).tail := specBasename_append_of_exists _ _ hsep
          · rw [if_neg hta]
            have hall : ∀ x ∈ t.dropWhile sepB, ¬ sepB x := by
              intro x hx
              rw [← hhead] at hx
              rcases List.mem_cons.mp hx with rfl | hxt
              · exact hheadn
              · intro hpx
                exact hta (List.any_eq_true.mpr ⟨x, hxt, hpx⟩)
            refine Eq.symm ?_
            calc specBasename (c :: t)
                = specBasename ((c :: t.takeWhile sepB) ++ t.dropWhile sepB) :=
                  congrArg specBasename hdecomp
              _ = ((t.dropWhile sepB).reverse ++
                    ((c :: t.takeWhile sepB).reverse.takeWhile (fun c => ¬ sepB c))).reverse := by
                  rw [specBasename, List.reverse_append,
                    takeWhile_append_of_all _ (t.dropWhile sepB).reverse _ (by
                      intro x hx
                      simpa using hall x (List.mem_reverse.mp hx))]
              _ = t.dropWhile sepB := by
                  rw [takeWhile_eq_nil_of_all_not _ _ (by
                    intro x hx
                    have hx' := List.mem_reverse.mp hx
                    rcases List.mem_cons.mp hx' with rfl | hxt
                    · simpa using hc
                    · simpa using htw x hxt)]
                  simp
        · -- the separator run reaches the terminator: base becomes empty
          simp only [hre, if_true]
          have hall : ∀ x ∈ t, sepB x := List.dropWhile_eq_nil_iff.mp
            (List.isEmpty_iff.mp hre)
          rw [specBasename, takeWhile_eq_nil_of_all_not]
          · simp
          · intro x hx
            have hx' := List.mem_reverse.mp hx
            rcases List.mem_cons.mp hx' with rfl | hxt
            · simpa using hc
            · simpa using hall x hxt
      · rw [if_neg hc]
        have hlen2 : t.length ≤ n := by simpa using hlen
        rw [ih t hlen2 base]
        have hany : (c :: t).any sepB = t.any sepB := by simp [hc]
        rw [hany]
        by_cases hta : t.any sepB
        · rw [if_pos hta, if_pos hta]
          obtain ⟨x, hx, hpx⟩ := List.any_eq_true.mp hta
          exact (specBasename_append_of_exists [c] t ⟨x, hx, hpx⟩).symm
        · rw [if_neg hta, if_neg hta]

theorem cBasename_eq_spec (s : List Char) : cBasename s = specBasename s := by
  rw [cBasename, baseFrom_eq_spec s.length s (le_refl _) s]
  by_cases h : s.any sepB
  · rw [if_pos h]
  · rw [if_neg h]
    refine (specBasename_all_not_sep s ?_).symm
    intro x hx hpx
    exact h (List.any_eq_true.mpr ⟨x, hx, hpx⟩)

theorem revScan_le (b : List Char) : ∀ k, revScan b k ≤ k := by
  intro k
  induction k with
  | zero => exact le_refl 0
  | succ k ih =>
    rw [revScan]
    split_ifs with h
    · exact le_refl _
    · exact le_trans ih (Nat.le_succ k)

theorem revScan_spec (b : List Char) :
    ∀ k, (revScan b k = 0 ∨ b.getD (revScan b k) nulC = '.') ∧
      (∀ i, revScan b k < i → i ≤ k → b.getD i nulC ≠ '.') := by
  intro k
  induction k with
  | zero =>
    refine ⟨Or.inl rfl, fun i h1 h2 => ?_⟩
    omega
  | succ k ih =>
    rw [revScan]
    split_ifs with h
    · exact ⟨Or.inr h, fun i h1 h2 => by omega⟩
    · refine ⟨ih.1, fun i h1 h2 => ?_⟩
      rcases Nat.lt_or_ge i (k + 1) with hik | hik
      · exact ih.2 i h1 (by omega)
      · have : i = k + 1 := by omega
        subst this
        exact h

theorem extStart_no_dot (b : List Char)
    (h : ∀ i, i < b.length → b.getD i nulC ≠ '.') : extStart b = b.length := by
  rw [extStart]
  have hspec := revScan_spec b b.length
  have hle := revScan_le b b.length
  have hj : revScan b b.length = 0 := by
    rcases hspec.1 with h0 | hdot
    · exact h0
    · by_cases hlt : revScan b b.length < b.length
      · exact absurd hdot (h _ hlt)
      · have : revScan b b.length = b.length := by omega
        rw [this] at hdot
        rw [List.getD_eq_default _ _ (le_refl _)] at hdot
        exact absurd hdot (by decide)
  rw [hj]
  split_ifs with hcond
  · rfl
  · push_neg at hcond
    exfalso
    have h0 := hcond rfl
    by_cases hlen : 0 < b.length
    · exact h 0 hlen h0
    · rw [List.getD_eq_default _ _ (by omega)] at h0
      exact (by decide : ¬ (nulC = '.')) h0

theorem extStart_last_dot (b : List Char) (i : ℕ) (hi : i < b.length)
    (hdot : b.getD i nulC = '.')
    (hafter : ∀ j, i < j → j < b.length → b.getD j nulC ≠ '.') : extStart b = i := by
  have hspec := revScan_spec b b.length
  have hle := revScan_le b b.length
  set j := revScan b b.length with hjdef
  have hjlt : j = b.length → False := by
    intro hj
    rcases hspec.1 with h0 | hdotj
    · omega
    · rw [hj, List.getD_eq_default _ _ (le_refl _)] at hdotj
      exact (by decide : ¬ (nulC = '.')) hdotj
  have hij : ¬ j < i := by
    intro hlt
    exact hspec.2 i hlt (by omega) hdot
  have hji : ¬ i < j := by
    intro hlt
    rcases hspec.1 with h0 | hdotj
    · omega
    · have hjb : j < b.length := by
        by_cases hjb : j < b.length
        · exact hjb
        · exfalso; exact hjlt (by omega)
      exact hafter j hlt hjb hdotj
  have hji2 : j = i := by omega
  rw [extStart, ← hjdef, hji2]
  split_ifs with hcond
  · exfalso
    exact hcond.2 (hcond.1 ▸ hdot)
  · rfl

/-- C10: `splitfilename` splits its input into `fname` and `ext` with
`fname ++ ext` equal to the basename (the text after the last maximal run of
`/` or `\` separators); `ext` is empty when the basename has no `'.'`, and
otherwise is the suffix of the basename starting at its last `'.'` (in
particular the whole basename when the only `'.'` is its first character). -/
theorem C10_splitfilename (s : List Char) :
    ((splitfilename s).1 ++ (splitfilename s).2 = specBasename s) ∧
    ((∀ i, i < (specBasename s).length → (specBasename s).getD i nulC ≠ '.') →
      (splitfilename s).2 = []) ∧
    (∀ i, i < (specBasename s).length → (specBasename s).getD i nulC = '.' →
      (∀ j, i < j → j < (specBasename s).length → (specBasename s).getD j nulC ≠ '.') →
      (splitfilename s).2 = (specBasename s).drop i) := by
  have hb : cBasename s = specBasename s := cBasename_eq_spec s
  refine ⟨?_, ?_, ?_⟩
  · rw [splitfilename]
    simp only [hb]
    exact List.take_append_drop _ _
  · intro h
    rw [splitfilename]
    simp only [hb]
    rw [extStart_no_dot _ h, List.drop_length]
  · intro i hi hdot hafter
    rw [splitfilename]
    simp only [hb]
    rw [extStart_last_dot _ i hi hdot hafter]

/-- C10 witness: the theorem applied at concrete paths. -/
theorem C10_witness :
    ((splitfilename ['d', '/', 'a', '.', 'b']).1 ++ (splitfilename ['d', '/', 'a', '.', 'b']).2 =
      specBasename ['d', '/', 'a', '.', 'b']) ∧
    (splitfilename ['a', 'b']).2 = [] ∧
    (splitfilename ['d', '/', 'a', '.', 'b']).2 = (specBasename ['d', '/', 'a', '.', 'b']).drop 1 :=
  ⟨(C10_splitfilename ['d', '/', 'a', '.', 'b']).1,
   (C10_splitfilename ['a', 'b']).2.1 (by decide),
   (C10_splitfilename ['d', '/', 'a', '.', 'b']).2.2 1 (by decide) (by decide)
     (by intro j h1 h2
         have hlen3 : (specBasename ['d', '/', 'a', '.', 'b']).length = 3 := by decide
         have hj2 : j = 2 := by omega
         subst hj2; decide)⟩

/-! ## Claim C3: `Texture2D` emission in the material XML -/

theorem splitfilename_append_eq (s : List Char) :
    (splitfilename s).1 ++ (splitfilename s).2 = specBasename s := by
  rw [splitfilename]
  simp only [cBasename_eq_spec]
  exact List.take_append_drop _ _

/-- C3 counterexample: the claim says every non-sentinel slot emits one
`Texture2D` (e.g. NORMAL under sampler `texNormal`); for a material whose
only populated slot is NORMAL the emitted document contains no `Texture2D`
element at all. -/
theorem C3_counterexample :
    exportMaterialDoc 0 ["norm.png"] exMatNormalOnly =
      Xml.elem "Material" []
        [Xml.elem "Pass" [("name", "Default")]
          [Xml.elem "Pipeline" [("render_pass", "Default")]
            [Xml.elem "Vertex" [("file_name", "Default.glsl")]
              [Xml.elem "Define" [("name", "INSTANCE_ATTRIBUTE_TRANSFORM")] []],
             Xml.elem "Fragment" [("file_name", "Default.glsl")] []]]] ∧
    exMatNormalOnly.textures.getD RAW_TEXTURE_USAGE_NORMAL (-1) = 0 := ⟨rfl, rfl⟩

/-- C3 (amended): only the diffuse/albedo slot pair is examined; when either
is non-sentinel exactly one `Texture2D` is emitted into the `Pass`, under
sampler name `texAlbedo`, with `file_name` the basename+extension of the
selected texture's path (the albedo slot taking precedence over diffuse) and
the fixed filter/address attributes; no other slot produces a `Texture2D`. -/
theorem C3_texture (format : ℕ) (texs : List String) (mat : RawMaterial) :
    (exportMaterialDoc format texs mat =
      Xml.elem "Material" []
        [Xml.elem "Pass" [("name", "Default")]
          ([Xml.elem "Pipeline" [("render_pass", "Default")]
              [Xml.elem "Vertex" [("file_name", "Default.glsl")] (defineNodes format),
               Xml.elem "Fragment" [("file_name", "Default.glsl")] []]] ++
            textureNodes texs mat)]) ∧
    (mat.textures.getD RAW_TEXTURE_USAGE_ALBEDO (-1) ≥ 0 →
      textureNodes texs mat = [texElem texs mat RAW_TEXTURE_USAGE_ALBEDO]) ∧
    (¬ mat.textures.getD RAW_TEXTURE_USAGE_ALBEDO (-1) ≥ 0 →
      mat.textures.getD RAW_TEXTURE_USAGE_DIFFUSE (-1) ≥ 0 →
      textureNodes texs mat = [texElem texs mat RAW_TEXTURE_USAGE_DIFFUSE]) ∧
    (¬ mat.textures.getD RAW_TEXTURE_USAGE_ALBEDO (-1) ≥ 0 →
      ¬ mat.textures.getD RAW_TEXTURE_USAGE_DIFFUSE (-1) ≥ 0 →
      textureNodes texs mat = []) ∧
    (∀ x ∈ textureNodes texs mat,
      x.tag = "Texture2D" ∧
      x.attr "name" = some "texAlbedo" ∧
      x.attr "min_filter" = some "GFX_NEAREST" ∧
      x.attr "mag_filter" = some "GFX_LINEAR" ∧
      x.attr "mipmap_mode" = some "GFX_NEAREST" ∧
      x.attr "address_mode" = some "GFX_CLAMP_TO_EDGE") ∧
    (∀ u : ℕ, (texElem texs mat u).attr "file_name" =
      some (String.mk (specBasename
        (GetTexture texs (mat.textures.getD u (-1)).toNat).data))) := by
  refine ⟨rfl, ?_, ?_, ?_, ?_, ?_⟩
  · intro ha
    rw [textureNodes]
    rw [if_pos (Or.inr ha)]
    simp only [ha, if_true, ite_true]
    rfl
  · intro ha hd
    rw [textureNodes]
    rw [if_pos (Or.inl hd)]
    simp only [ha, hd, if_true, if_false, ite_true, ite_false]
    rfl
  · intro ha hd
    rw [textureNodes]
    rw [if_neg (by intro h; rcases h with h | h; exact hd h; exact ha h)]
  · intro x hx
    rw [textureNodes] at hx
    split_ifs at hx <;>
      first
        | (rw [List.mem_singleton] at hx
           subst hx
           exact ⟨rfl, rfl, rfl, rfl, rfl, rfl⟩)
        | cases hx
  · intro u
    rw [texElem, Xml.attr]
    simp only [Xml.attrs, List.find?]
    rw [splitfilename_append_eq]
    rfl

/-- C3 witness: the albedo branch at a concrete material. -/
theorem C3_witness :
    textureNodes ["tex.png"] exMatAlbedo =
      [texElem ["tex.png"] exMatAlbedo RAW_TEXTURE_USAGE_ALBEDO] :=
  (C3_texture 0 ["tex.png"] exMatAlbedo).2.1 (by decide)

/-! ## Claim C7: LOD-group recognition -/

theorem strstrB_substring_correct (hay needle : List Char) :
    strstrB hay needle = true ↔ needle <:+: hay := by
  induction hay with
  | nil =>
    rw [strstrB]
    cases hb : needle.isPrefixOf ([] : List Char) with
    | true =>
      rw [if_pos rfl]
      have he : needle = [] := List.prefix_nil.mp (List.isPrefixOf_iff_prefix.mp hb)
      subst he
      exact ⟨fun _ => List.infix_nil.mpr rfl, fun _ => rfl⟩
    | false =>
      rw [if_neg (by decide)]
      constructor
      · intro hf
        exact absurd hf (by decide)
      · intro hinf
        have he : needle = [] := List.infix_nil.mp hinf
        subst he
        exact absurd hb (by decide)
  | cons c t ih =>
    rw [strstrB]
    cases hb : needle.isPrefixOf (c :: t) with
    | true =>
      rw [if_pos rfl]
      exact ⟨fun _ => (List.isPrefixOf_iff_prefix.mp hb).isInfix, fun _ => rfl⟩
    | false =>
      rw [if_neg (by decide)]
      rw [ih, List.infix_cons_iff]
      refine ⟨fun hi => Or.inr hi, fun h => ?_⟩
      rcases h with hp | hi
      · exact absurd (List.isPrefixOf_iff_prefix.mpr hp) (by simp [hb])
      · exact hi

/-- C7: a node is classified as a LOD group iff its name contains the
literal substring `_LODGroup`, it has at least one child, and every child
has no children of its own and scale within 1e-4 of one, translation within
1e-4 of zero and stored quaternion within 1e-4 of `(w=1,x=0,y=0,z=0)`
componentwise; and the classification depends only on the node's name and
its immediate children's records. -/
theorem C7_lod_recognition (n : RawNode) :
    (IsNodeLODGrpup n = true ↔
      ("_LODGroup".data <:+: n.name.data ∧
       n.children ≠ [] ∧
       ∀ c ∈ n.children,
         c.children = [] ∧
         (|c.scale.x - 1| ≤ lodEps ∧ |c.scale.y - 1| ≤ lodEps ∧ |c.scale.z - 1| ≤ lodEps) ∧
         (|c.translation.x| ≤ lodEps ∧ |c.translation.y| ≤ lodEps ∧
          |c.translation.z| ≤ lodEps) ∧
         (|c.rotation.w - 1| ≤ lodEps ∧ |c.rotation.x| ≤ lodEps ∧
          |c.rotation.y| ≤ lodEps ∧ |c.rotation.z| ≤ lodEps))) ∧
    (∀ n' : RawNode, n.name = n'.name → n.children = n'.children →
      IsNodeLODGrpup n = IsNodeLODGrpup n') := by
  constructor
  · rw [IsNodeLODGrpup]
    split_ifs with h1 h2
    · refine ⟨fun h => absurd h (by decide), fun hconj => ?_⟩
      have hstr : strstrB n.name.data "_LODGroup".data = true :=
        (strstrB_substring_correct _ _).mpr hconj.1
      rw [IsNameLODGroup] at h1
      rw [hstr] at h1
      cases h1
    · refine ⟨fun h => absurd h (by decide), fun hconj => ?_⟩
      exact absurd (List.isEmpty_iff.mp h2) hconj.2.1
    · rw [List.all_eq_true]
      have hname : "_LODGroup".data <:+: n.name.data := by
        have hT : IsNameLODGroup n.name = true := by
          cases hbe : IsNameLODGroup n.name
          · exact absurd hbe h1
          · rfl
        rw [IsNameLODGroup] at hT
        exact (strstrB_substring_correct _ _).mp hT
      have hne : n.children ≠ [] := fun hnil => h2 (by rw [hnil]; rfl)
      constructor
      · intro hall
        refine ⟨hname, hne, fun c hc => ?_⟩
        have h := hall c hc
        simp [not_or, not_lt, List.isEmpty_iff] at h
        tauto
      · rintro ⟨-, -, hall⟩ c hc
        have h := hall c hc
        simp [not_or, not_lt, List.isEmpty_iff]
        tauto
  · intro n' hname hch
    cases n with
    | node nm t r s sid ch =>
      cases n' with
      | node nm' t' r' s' sid' ch' =>
        simp only [RawNode.name] at hname
        simp only [RawNode.children] at hch
        subst hname
        subst hch
        rfl

/-- C7 witness: the recognition theorem applied at a concrete group node. -/
theorem C7_witness : IsNodeLODGrpup exGroup = true :=
  (C7_lod_recognition exGroup).1.mpr ⟨by decide, by simp [exGroup, RawNode.children], by
    intro c hc
    simp only [exGroup, RawNode.children, List.mem_cons, List.not_mem_nil, or_false] at hc
    rcases hc with rfl | rfl <;>
      refine ⟨rfl, ?_, ?_, ?_⟩ <;>
      norm_num [exLOD0, exLOD1, RawNode.scale, RawNode.translation, RawNode.rotation,
        lodEps]⟩

/-! ## Claim C8: LOD-group flattening into `Draw` children -/

theorem exportNodeDraw_tag (sm : Int → ℕ) (sn : Int → String) (smat : Int → String)
    (n : RawNode) (lod : Int) :
    ∀ x ∈ ExportNodeDraw sm sn smat n lod, x.tag = "Draw" := by
  intro x hx
  rw [ExportNodeDraw] at hx
  by_cases h : n.surfaceId ≠ 0
  · rw [if_pos h] at hx
    rw [List.mem_singleton] at hx
    subst hx
    rfl
  · rw [if_neg h] at hx
    cases hx

theorem exportNodeDraw_lod_attr (sm : Int → ℕ) (sn : Int → String) (smat : Int → String)
    (n : RawNode) (lod : Int) :
    ∀ x ∈ ExportNodeDraw sm sn smat n lod,
      x.attr "lod" = if lod ≥ 0 then some (toString lod) else none := by
  intro x hx
  rw [ExportNodeDraw] at hx
  by_cases h : n.surfaceId ≠ 0
  · rw [if_pos h] at hx
    rw [List.mem_singleton] at hx
    subst hx
    by_cases hl : lod ≥ 0
    · simp only [if_pos hl]
      rfl
    · simp only [if_neg hl]
      rfl
  · rw [if_neg h] at hx
    cases hx

theorem GetLODIndexLoop_spec (name : List Char) :
    ∀ fuel, fuel ≤ 8 →
      (∃ k : ℕ, 8 - fuel ≤ k ∧ k < 8 ∧ GetLODIndexLoop name fuel = (k : Int) ∧
        strstrB name (lodPattern k) = true ∧
        ∀ j, 8 - fuel ≤ j → j < k → strstrB name (lodPattern j) = false) ∨
      (GetLODIndexLoop name fuel = -1 ∧
        ∀ k, 8 - fuel ≤ k → k < 8 → strstrB name (lodPattern k) = false) := by
  intro fuel
  induction fuel with
  | zero =>
    intro _
    right
    exact ⟨rfl, fun k hk1 hk2 => absurd hk2 (by omega)⟩
  | succ f ih =>
    intro hle
    have hstep : GetLODIndexLoop name (f + 1) =
        if strstrB name (lodPattern (8 - (f + 1))) then ((8 - (f + 1) : ℕ) : Int)
        else GetLODIndexLoop name f := rfl
    by_cases hs : strstrB name (lodPattern (8 - (f + 1))) = true
    · left
      exact ⟨8 - (f + 1), le_refl _, by omega, by rw [hstep, if_pos hs], hs,
        fun j hj1 hj2 => absurd hj2 (by omega)⟩
    · have hsf : strstrB name (lodPattern (8 - (f + 1))) = false := by
        cases hb : strstrB name (lodPattern (8 - (f + 1)))
        · rfl
        · exact absurd hb hs
      have heq : GetLODIndexLoop name (f + 1) = GetLODIndexLoop name f := by
        rw [hstep, if_neg hs]
      rcases ih (by omega) with ⟨k, hk1, hk2, hk3, hk4, hk5⟩ | ⟨h1, h2⟩
      · left
        refine ⟨k, by omega, hk2, by rw [heq]; exact hk3, hk4, fun j hj1 hj2 => ?_⟩
        by_cases hj : j = 8 - (f + 1)
        · subst hj
          exact hsf
        · exact hk5 j (by omega) hj2
      · right
        refine ⟨by rw [heq]; exact h1, fun k hk1 hk2 => ?_⟩
        by_cases hk : k = 8 - (f + 1)
        · subst hk
          exact hsf
        · exact h2 k (by omega) hk2

/-- C8: for a node recognized as a LOD group the writer emits, inside the
group's own `Node` element, its own `Draw` (when it carries a surface)
followed by one `Draw` per child in child order (when the child carries a
surface) instead of recursing into child `Node` elements; a child's `Draw`
carries `lod = k` exactly when `GetLODIndex` of its name is `k ≥ 0` — the
first (lowest) index among `_LOD0`…`_LOD7` occurring as a substring — and
omits the attribute when none occurs. -/
theorem C8_lod_flatten (sm : Int → ℕ) (sn : Int → String) (smat : Int → String)
    (n : RawNode) (hgrp : IsNodeLODGrpup n = true) :
    ((ExportNode sm sn smat n).children =
      ExportNodeDraw sm sn smat n (-1) ++
        n.children.flatMap (fun c => ExportNodeDraw sm sn smat c (GetLODIndex c.name))) ∧
    (∀ x ∈ (ExportNode sm sn smat n).children, x.tag = "Draw") ∧
    (∀ c : RawNode, ∀ x ∈ ExportNodeDraw sm sn smat c (GetLODIndex c.name),
      x.attr "lod" =
        if GetLODIndex c.name ≥ 0 then some (toString (GetLODIndex c.name)) else none) ∧
    (∀ s : String,
      (∃ k : ℕ, k < 8 ∧ GetLODIndex s = (k : Int) ∧ strstrB s.data (lodPattern k) = true ∧
        ∀ j, j < k → strstrB s.data (lodPattern j) = false) ∨
      (GetLODIndex s = -1 ∧ ∀ k, k < 8 → strstrB s.data (lodPattern k) = false)) := by
  have hchildren : (ExportNode sm sn smat n).children =
      ExportNodeDraw sm sn smat n (-1) ++
        n.children.flatMap (fun c => ExportNodeDraw sm sn smat c (GetLODIndex c.name)) := by
    cases n with
    | node nm t r s sid ch =>
      rw [ExportNode]
      simp only [Xml.children]
      rw [if_pos hgrp]
      rfl
  refine ⟨hchildren, ?_, ?_, ?_⟩
  · intro x hx
    rw [hchildren] at hx
    rcases List.mem_append.mp hx with hx1 | hx2
    · exact exportNodeDraw_tag sm sn smat n (-1) x hx1
    · obtain ⟨c, _, hxc⟩ := List.mem_flatMap.mp hx2
      exact exportNodeDraw_tag sm sn smat c _ x hxc
  · intro c x hx
    exact exportNodeDraw_lod_attr sm sn smat c _ x hx
  · intro s
    rcases GetLODIndexLoop_spec s.data 8 (le_refl 8) with ⟨k, _, hk2, hk3, hk4, hk5⟩ | ⟨h1, h2⟩
    · exact Or.inl ⟨k, hk2, hk3, hk4, fun j hj => hk5 j (by omega) hj⟩
    · exact Or.inr ⟨h1, fun k hk => h2 k (by omega) hk⟩

/-- Shared fact: the concrete node `exGroup` is recognized as a LOD group. -/
theorem exGroup_lod_group : IsNodeLODGrpup exGroup = true := by
  rw [IsNodeLODGrpup]
  rw [if_neg (by decide), if_neg (by decide)]
  rw [List.all_eq_true]
  intro c hc
  simp only [exGroup, RawNode.children, List.mem_cons, List.not_mem_nil, or_false] at hc
  rcases hc with rfl | rfl <;>
    simp [not_or, not_lt, lodEps, exLOD0, exLOD1, RawNode.children, RawNode.scale,
      RawNode.translation, RawNode.rotation]

/-- C8 witness: the flattening theorem applied at the concrete group. -/
theorem C8_witness :
    (ExportNode (fun _ => 0) (fun _ => "") (fun _ => "") exGroup).children =
      ExportNodeDraw (fun _ => 0) (fun _ => "") (fun _ => "") exGroup (-1) ++
        exGroup.children.flatMap
          (fun c => ExportNodeDraw (fun _ => 0) (fun _ => "") (fun _ => "") c
            (GetLODIndex c.name)) :=
  (C8_lod_flatten (fun _ => 0) (fun _ => "") (fun _ => "") exGroup exGroup_lod_group).1

end Raw2Cross
